import Mathlib

/-!
# Verification of the Mt-KaHyPar parallel refinement engine specification

Shallow embedding, in Lean 4, of the parts of `uulm-janbaudisch/mt-kahypar` that the
frozen claims C1–C10 talk about:

* the shared work container `mt-kahypar/parallel/work_stack.h` (`SPMCQueue`,
  `WorkContainer`),
* the balance budget used by the localized FM refiner
  (`mt-kahypar/partition/refinement/fm/localized_kway_fm_core.h`),
* the deterministic synchronous label-propagation refiner
  (`mt-kahypar/partition/refinement/deterministic/deterministic_label_propagation.cpp`):
  its apply strategies and the prefix search `findBestPrefixesRecursive` /
  `findBestPrefixesSequentially`.

Machine integers are modeled as `Nat`/`Int` with explicit `% 2^w` where the width
matters (`uint32_t` timestamps, `size_t` sentinels).  All state is passed explicitly;
the concurrent code is embedded with its single-thread (sequential) semantics, and the
points where a concurrent interleaving or a weak-CAS spurious failure matters are made
explicit inputs of the embedded functions.
-/

namespace MtKahypar

/-! ## Part A — definitions -/

/-! ### Shared work container (`mt-kahypar/parallel/work_stack.h`) -/

/-- `SPMCQueue::in_reallocation = std::numeric_limits<size_t>::max() / 2`
(work_stack.h:34). -/
def inRealloc : Nat := (2 ^ 64 - 1) / 2

/-- `SPMCQueue` (work_stack.h:32-123): a growable array `elements` plus an atomic
`front` index. -/
structure SPMCQueue (T : Type) where
  elements : List T
  front : Nat

/-- `SPMCQueue::unsafe_size()` (work_stack.h:111-114): reads `front` and
`elements.size()` and returns `b >= f ? b - f : 0`. -/
def SPMCQueue.qsize {T : Type} (q : SPMCQueue T) : Nat :=
  let f := q.front
  let b := q.elements.length
  if f ≤ b then b - f else 0

/-- `SPMCQueue::empty()` (work_stack.h:116-118): the source literally returns
`unsafe_size() > 0`. -/
def SPMCQueue.empty {T : Type} (q : SPMCQueue T) : Bool :=
  decide (0 < q.qsize)

/-- `SPMCQueue::currently_blocked()` (work_stack.h:103-105):
`front >= std::numeric_limits<size_t>::max() / 2`. -/
def SPMCQueue.currentlyBlocked {T : Type} (q : SPMCQueue T) : Bool :=
  decide (inRealloc ≤ q.front)

/-- The `while (front.compare_exchange_weak(front_spin_variable, in_reallocation,
std::memory_order_acq_rel)) { /* spin */ }` loop of `SPMCQueue::push_back`
(work_stack.h:67-69), followed by `elements.push_back(el)` which grows the storage.
The loop body is empty and the loop condition is the CAS result, so the loop runs
*while* the CAS succeeds and exits on the first CAS that fails.  A
`compare_exchange_weak` attempt fails when `front ≠ front_spin_variable` (e.g. a
concurrent pop did a `fetch_add`) and is also allowed to fail spuriously even when the
values are equal; `spurious` records whether the first attempt fails that way.  After a
successful first attempt `front = in_reallocation ≠ front_spin_variable` (the sentinel
is above every valid index), so the second attempt fails and the loop exits.  The
function returns the value of `front` at the moment the loop has exited, i.e. at the
moment the storage is grown. -/
def frontWhenGrowing (front fsv : Nat) (spurious : Bool) : Nat :=
  if front = fsv ∧ spurious = false then inRealloc else front

/-- `SPMCQueue::try_pop_front` (work_stack.h:87-101), single-thread semantics: when the
guard `f < in_reallocation && f < elements.size()` holds, the slot obtained by the
`fetch_add` is `f` itself and both re-checks succeed; a failed call performs no
`fetch_add` and leaves the queue unchanged. -/
def SPMCQueue.tryPopFront {T : Type} (q : SPMCQueue T) : Option T × SPMCQueue T :=
  if h : q.front < inRealloc ∧ q.front < q.elements.length then
    (some (q.elements.get ⟨q.front, h.2⟩), ⟨q.elements, q.front + 1⟩)
  else (none, q)

/-- The stealing loop `for (Queue& other_queue : tls_queues)` of
`WorkContainer::try_pop` (work_stack.h:156-163): the first queue whose
`try_pop_front` succeeds supplies the element; a failed `try_pop_front` leaves its
queue unchanged. -/
def stealFirst {T : Type} : List (SPMCQueue T) → Option T
  | [] => none
  | q :: rest =>
    match (q.tryPopFront).1 with
    | some x => some x
    | none => stealFirst rest

/-- The spin-wait pass of `WorkContainer::try_pop` (work_stack.h:166-175): for each
queue (numbered from `i`) that is currently blocked, spin until its reallocation
finishes — `resolve j` is the state of queue `j` after its owner's `push_back`
released `front` — and retry `try_pop_front` on it; the first success supplies the
element. -/
def spinPhase {T : Type} : List (SPMCQueue T) → (Nat → SPMCQueue T) → Nat → Option T
  | [], _, _ => none
  | q :: rest, resolve, i =>
    if q.currentlyBlocked then
      match ((resolve i).tryPopFront).1 with
      | some x => some x
      | none => spinPhase rest resolve (i + 1)
    else spinPhase rest resolve (i + 1)

/-- `WorkContainer::try_pop` (work_stack.h:147-179), single-thread semantics.
`localIdx` identifies `tls_queues.local()`, `sf` is the current value of the
cumulative counter `steal_failures`, and `resolve` gives the post-reallocation state
of each queue for the spin-wait (see `spinPhase`).  The code first pops the local
queue, then steals from every queue in order recording `some_are_blocked`; on total
failure it enters the spin-wait pass only when `some_are_blocked &&
steal_failures.fetch_add(1) < 1024` (the `fetch_add` is short-circuited away when no
queue is blocked).  Timestamp updates on success are modeled separately
(`WorkTimestamps`).  Returns the popped element (if any) and the new value of
`steal_failures`. -/
def wcTryPop {T : Type} (qs : List (SPMCQueue T)) (localIdx : Nat) (sf : Nat)
    (resolve : Nat → SPMCQueue T) : Option T × Nat :=
  match ((qs.getD localIdx ⟨[], 0⟩).tryPopFront).1 with
  | some x => (some x, sf)
  | none =>
    match stealFirst qs with
    | some x => (some x, sf)
    | none =>
      if qs.any SPMCQueue.currentlyBlocked then
        if sf < 1024 then (spinPhase qs resolve 0, sf + 1)
        else (none, sf + 1)
      else (none, sf)

/-- `2^32`, the modulus of the `uint32_t` timestamps of `WorkContainer`. -/
def U32 : Nat := 2 ^ 32

/-- The timestamp/epoch state of `WorkContainer` (work_stack.h:205-206):
`vec<TimestampT> timestamps` with `TimestampT = uint32_t`, and `TimestampT current`.
Every stored value is `< 2^32`. -/
structure WorkTimestamps where
  timestamps : List Nat
  current : Nat

/-- `WorkContainer::was_pushed_and_removed(el)` (work_stack.h:181-183):
`timestamps[el] == current + 1` in `uint32_t` arithmetic. -/
def wasPushedAndRemoved (w : WorkTimestamps) (el : Nat) : Bool :=
  decide (w.timestamps.getD el 0 = (w.current + 1) % U32)

/-- The timestamp/epoch part of `WorkContainer::clear()` (work_stack.h:193-203): if
`current >= std::numeric_limits<TimestampT>::max() - 2` all timestamps are zeroed (in
parallel) and `current` is reset to `0`; then the queues are cleared (the queue part
is modeled by `SPMCQueue`), `current += 2` in `uint32_t` arithmetic, and
`steal_failures` is reset. -/
def clearTimestamps (w : WorkTimestamps) : WorkTimestamps :=
  if (U32 - 1) - 2 ≤ w.current then
    { timestamps := w.timestamps.map (fun _ => 0), current := (0 + 2) % U32 }
  else
    { timestamps := w.timestamps, current := (w.current + 2) % U32 }

/-! ### Localized FM balance budget (`localized_kway_fm_core.h`) -/

/-- Modelled from the spec: the implementation of
`PartitionedHypergraph::changeNodePart(v, from, to, budget, …)` is not part of this
repository slice.  Per spec §6 the move is accepted iff the balance check against
`budget` passes, i.e. iff the target block's weight after receiving the node stays
within `budget`. -/
def changeNodePartAccepts (toWeight nodeWeight budget : Int) : Bool :=
  decide (toWeight + nodeWeight ≤ budget)

/-- The balance budget passed by `LocalizedKWayFM` to `deltaPhg.changeNodePart`
(localized_kway_fm_core.h:153-154) and to `phg.changeNodePartFullUpdate`
(localized_kway_fm_core.h:233-234):
`std::max(context.partition.max_part_weights[m.to], fromWeight)` where `fromWeight`
is the current weight of the source block. -/
def fmBalanceBudget (maxPartWeights : Nat → Int) (fromWeight : Int) (to_ : Nat) : Int :=
  max (maxPartWeights to_) fromWeight

/-! ### Best-prefix search of the deterministic LP refiner
(`deterministic_label_propagation.cpp:400-503`) -/

/-- Modelled from the spec: the sentinel `invalid_pos` is declared in
`deterministic_label_propagation.h` (not in this repository slice); the spec calls the
result "invalid".  It is the `size_t` sentinel `std::numeric_limits<size_t>::max()`,
distinct from every valid position. -/
def invalidPos : Int := 2 ^ 64 - 1

/-- The read of `cumulative_node_weights` inside `balance`
(deterministic_label_propagation.cpp:413-414 and 482-483): index `inv` (the
`p1_invalid` / `p2_invalid` marker, `begin - 1`, standing for the empty prefix) reads
as 0, every other index reads the array. -/
def cnwAt (c : Int → Int) (inv i : Int) : Int :=
  if i = inv then 0 else c i

/-- `balance(p1_ind, p2_ind)` (deterministic_label_propagation.cpp:406-416, 481-485). -/
def balanceAt (c : Int → Int) (inv1 inv2 i j : Int) : Int :=
  cnwAt c inv1 i - cnwAt c inv2 j

/-- `is_feasible(p1_ind, p2_ind)` (deterministic_label_propagation.cpp:418-421,
487-490): `lb_p1 <= bal && bal <= ub_p2`. -/
def feasibleAt (c : Int → Int) (inv1 inv2 lb ub i j : Int) : Prop :=
  lb ≤ balanceAt c inv1 inv2 i j ∧ balanceAt c inv1 inv2 i j ≤ ub

instance (c : Int → Int) (inv1 inv2 lb ub i j : Int) :
    Decidable (feasibleAt c inv1 inv2 lb ub i j) := by
  unfold feasibleAt
  exact instDecidableAnd

/-- `findBestPrefixesSequentially` (deterministic_label_propagation.cpp:476-503).  The
`while (true)` loop is unrolled into recursion; the guards `p2_end == p2_begin` /
`p1_end == p1_begin` before the decrements are written `≤` (equivalent whenever the
ranges satisfy `begin ≤ end`, which the callers guarantee; it also makes the recursion
well-founded on arbitrary integer inputs). -/
def findBestPrefixesSequentially (c : Int → Int) (inv1 inv2 lb ub b1 e1 b2 e2 : Int) :
    Int × Int :=
  if feasibleAt c inv1 inv2 lb ub (e1 - 1) (e2 - 1) then (e1, e2)
  else if balanceAt c inv1 inv2 (e1 - 1) (e2 - 1) < 0 then
    if h2 : e2 ≤ b2 then (invalidPos, invalidPos)
    else findBestPrefixesSequentially c inv1 inv2 lb ub b1 e1 b2 (e2 - 1)
  else
    if h1 : e1 ≤ b1 then (invalidPos, invalidPos)
    else findBestPrefixesSequentially c inv1 inv2 lb ub b1 (e1 - 1) b2 e2
termination_by ((e1 - b1).toNat + (e2 - b2).toNat)
decreasing_by
· omega
· omega

/-- `std::lower_bound(c + lo, c + hi, v)` (used at
deterministic_label_propagation.cpp:433 and 454): on a range sorted in nondecreasing
order this returns the first index `i ∈ [lo, hi)` with `v ≤ c i`, or `hi` when there
is none; that defining postcondition is written out as a linear recursion. -/
def lowBound (c : Int → Int) (lo hi v : Int) : Int :=
  if h : lo < hi then (if v ≤ c lo then lo else lowBound c (lo + 1) hi v) else hi
termination_by (hi - lo).toNat
decreasing_by omega

/-- `lowBound` never exceeds the end of the range. -/
theorem lowBound_le_hi (c : Int → Int) (lo hi v : Int) : lowBound c lo hi v ≤ hi := by
  induction lo, hi, v using lowBound.induct c with
  | case1 lo hi v hlt hle => rw [lowBound]; simp [hlt, hle]; omega
  | case2 lo hi v hlt hle ih => rw [lowBound]; simpa [hlt, hle] using ih
  | case3 lo hi v hlt => rw [lowBound]; simp [hlt]

/-- `lowBound` never goes below the start of the range (below `min lo hi` on garbage
ranges). -/
theorem min_le_lowBound (c : Int → Int) (lo hi v : Int) :
    min lo hi ≤ lowBound c lo hi v := by
  induction lo, hi, v using lowBound.induct c with
  | case1 lo hi v hlt hle => rw [lowBound]; simp [hlt, hle]
  | case2 lo hi v hlt hle ih =>
      rw [lowBound]
      simp only [hlt, dif_pos, hle, if_neg, if_false]
      have := ih
      omega
  | case3 lo hi v hlt => rw [lowBound]; simp [hlt]

/-- Every index strictly before the returned one holds a value `< v`. -/
theorem lowBound_lt_of_lt (c : Int → Int) (lo hi v : Int) (j : Int) (hlo : lo ≤ j)
    (hj : j < lowBound c lo hi v) : c j < v := by
  induction lo, hi, v using lowBound.induct c with
  | case1 lo hi v hlt hle =>
      rw [lowBound] at hj
      simp [hlt, hle] at hj
      omega
  | case2 lo hi v hlt hle ih =>
      rw [lowBound] at hj
      simp only [hlt, dif_pos, hle, if_neg, if_false] at hj
      rcases eq_or_lt_of_le hlo with heq | hlt'
      · subst heq
        omega
      · exact ih (by omega) hj
  | case3 lo hi v hlt =>
      rw [lowBound] at hj
      simp [hlt] at hj
      omega

/-- The value at the returned index (when it is inside the range) is `≥ v`. -/
theorem le_lowBound_get (c : Int → Int) (lo hi v : Int)
    (h : lowBound c lo hi v < hi) : v ≤ c (lowBound c lo hi v) := by
  induction lo, hi, v using lowBound.induct c with
  | case1 lo hi v hlt hle =>
      rw [lowBound]
      simp [hlt, hle]
  | case2 lo hi v hlt hle ih =>
      rw [lowBound] at h ⊢
      simp only [hlt, dif_pos, hle, if_neg, if_false] at h ⊢
      exact ih h
  | case3 lo hi v hlt =>
      rw [lowBound] at h
      simp [hlt] at h

/-- `findBestPrefixesRecursive` (deterministic_label_propagation.cpp:400-474):
divide-and-conquer on the longer axis with `sequential_cutoff = 2000`; the index of
the midpoint's matching cumulative weight in the other range is found with
`std::lower_bound`; the right/upper result is preferred when valid.  The two
`tbb::parallel_invoke` branches are pure and are evaluated as `left` and `right`. -/
def findBestPrefixesRecursive (c : Int → Int) (inv1 inv2 lb ub b1 e1 b2 e2 : Int) :
    Int × Int :=
  if hseq : e1 - b1 < 2000 ∧ e2 - b2 < 2000 then
    findBestPrefixesSequentially c inv1 inv2 lb ub b1 e1 b2 e2
  else if hgt : e2 - b2 < e1 - b1 then
    if hA : lowBound c b2 e2 (c (b1 + (e1 - b1) / 2)) ≠ e2 ∧ b1 + (e1 - b1) / 2 ≠ e1 ∧
        feasibleAt c inv1 inv2 lb ub (b1 + (e1 - b1) / 2)
          (lowBound c b2 e2 (c (b1 + (e1 - b1) / 2))) then
      findBestPrefixesRecursive c inv1 inv2 lb ub (b1 + (e1 - b1) / 2 + 1) e1
        (lowBound c b2 e2 (c (b1 + (e1 - b1) / 2)) + 1) e2
    else if hB : lowBound c b2 e2 (c (b1 + (e1 - b1) / 2)) = e2 ∧
        ub < balanceAt c inv1 inv2 (b1 + (e1 - b1) / 2) (e2 - 1) then
      findBestPrefixesRecursive c inv1 inv2 lb ub b1 (b1 + (e1 - b1) / 2) b2
        (lowBound c b2 e2 (c (b1 + (e1 - b1) / 2)))
    else
      let left := findBestPrefixesRecursive c inv1 inv2 lb ub b1 (b1 + (e1 - b1) / 2)
        b2 (lowBound c b2 e2 (c (b1 + (e1 - b1) / 2)))
      let right := findBestPrefixesRecursive c inv1 inv2 lb ub (b1 + (e1 - b1) / 2) e1
        (lowBound c b2 e2 (c (b1 + (e1 - b1) / 2))) e2
      if right.1 ≠ invalidPos then right else left
  else
    if hA : lowBound c b1 e1 (c (b2 + (e2 - b2) / 2)) ≠ e1 ∧ b2 + (e2 - b2) / 2 ≠ e2 ∧
        feasibleAt c inv1 inv2 lb ub (lowBound c b1 e1 (c (b2 + (e2 - b2) / 2)))
          (b2 + (e2 - b2) / 2) then
      findBestPrefixesRecursive c inv1 inv2 lb ub
        (lowBound c b1 e1 (c (b2 + (e2 - b2) / 2)) + 1) e1 (b2 + (e2 - b2) / 2 + 1) e2
    else if hB : lowBound c b1 e1 (c (b2 + (e2 - b2) / 2)) = e1 ∧
        balanceAt c inv1 inv2 (e1 - 1) (b2 + (e2 - b2) / 2) < lb then
      findBestPrefixesRecursive c inv1 inv2 lb ub b1
        (lowBound c b1 e1 (c (b2 + (e2 - b2) / 2))) b2 (b2 + (e2 - b2) / 2)
    else
      let left := findBestPrefixesRecursive c inv1 inv2 lb ub b1
        (lowBound c b1 e1 (c (b2 + (e2 - b2) / 2))) b2 (b2 + (e2 - b2) / 2)
      let right := findBestPrefixesRecursive c inv1 inv2 lb ub
        (lowBound c b1 e1 (c (b2 + (e2 - b2) / 2))) e1 (b2 + (e2 - b2) / 2) e2
      if right.1 ≠ invalidPos then right else left
termination_by ((e1 - b1).toNat + (e2 - b2).toNat)
decreasing_by
· have h1 := lowBound_le_hi c b2 e2 (c (b1 + (e1 - b1) / 2))
  have h2 := min_le_lowBound c b2 e2 (c (b1 + (e1 - b1) / 2))
  omega
· have h1 := lowBound_le_hi c b2 e2 (c (b1 + (e1 - b1) / 2))
  have h2 := min_le_lowBound c b2 e2 (c (b1 + (e1 - b1) / 2))
  omega
· have h1 := lowBound_le_hi c b2 e2 (c (b1 + (e1 - b1) / 2))
  have h2 := min_le_lowBound c b2 e2 (c (b1 + (e1 - b1) / 2))
  omega
· have h1 := lowBound_le_hi c b2 e2 (c (b1 + (e1 - b1) / 2))
  have h2 := min_le_lowBound c b2 e2 (c (b1 + (e1 - b1) / 2))
  omega
· have h1 := lowBound_le_hi c b1 e1 (c (b2 + (e2 - b2) / 2))
  have h2 := min_le_lowBound c b1 e1 (c (b2 + (e2 - b2) / 2))
  omega
· have h1 := lowBound_le_hi c b1 e1 (c (b2 + (e2 - b2) / 2))
  have h2 := min_le_lowBound c b1 e1 (c (b2 + (e2 - b2) / 2))
  omega
· have h1 := lowBound_le_hi c b1 e1 (c (b2 + (e2 - b2) / 2))
  have h2 := min_le_lowBound c b1 e1 (c (b2 + (e2 - b2) / 2))
  omega
· have h1 := lowBound_le_hi c b1 e1 (c (b2 + (e2 - b2) / 2))
  have h2 := min_le_lowBound c b1 e1 (c (b2 + (e2 - b2) / 2))
  omega

/-- The search domain of the prefix search on inclusive last-index coordinates: the
pair `(i, j)` stands for the prefixes ending at `i` and `j` (the range begins minus
one denote the empty prefixes).  Spec wording: "pair of prefix lengths (a, b)" with
`a = i - (p1_begin - 1)`, `b = j - (p2_begin - 1)`. -/
def inRect (b1 e1 b2 e2 i j : Int) : Prop :=
  b1 - 1 ≤ i ∧ i ≤ e1 - 1 ∧ b2 - 1 ≤ j ∧ j ≤ e2 - 1

instance (b1 e1 b2 e2 i j : Int) : Decidable (inRect b1 e1 b2 e2 i j) := by
  unfold inRect
  infer_instance

/-- The componentwise-greatest feasible pair of the rectangle — in particular the
lexicographically rightmost one.  Spec wording: "the lexicographically-rightmost
pair of prefix lengths (a, b) such that the weight balance lies in
`[lb_p1, ub_p2]`". -/
def greatestFeasPair (c : Int → Int) (inv1 inv2 lb ub b1 e1 b2 e2 i j : Int) : Prop :=
  inRect b1 e1 b2 e2 i j ∧ feasibleAt c inv1 inv2 lb ub i j
  ∧ ∀ x y, inRect b1 e1 b2 e2 x y → feasibleAt c inv1 inv2 lb ub x y → x ≤ i ∧ y ≤ j

/-- Monotonicity of the cumulative node weights (with the empty prefix reading 0) on
`[inv, G - 1]`: what "sorted move ranges with their cumulative node-weight prefix
sums" provides. -/
def cnwMonoOn (c : Int → Int) (inv G : Int) : Prop :=
  ∀ i j, inv ≤ i → i ≤ j → j ≤ G - 1 → cnwAt c inv i ≤ cnwAt c inv j

/-- What a correct prefix search returns on a rectangle: the successor pair of the
componentwise-greatest feasible pair, or the invalid pair exactly when the rectangle
holds no feasible pair. -/
def prefixCharOf (c : Int → Int) (inv1 inv2 lb ub b1 e1 b2 e2 : Int)
    (r : Int × Int) : Prop :=
  (∃ i j, greatestFeasPair c inv1 inv2 lb ub b1 e1 b2 e2 i j ∧ r = (i + 1, j + 1))
  ∨ ((∀ x y, inRect b1 e1 b2 e2 x y → ¬feasibleAt c inv1 inv2 lb ub x y)
      ∧ r = (invalidPos, invalidPos))

/-! ### Partitioned hypergraph, km1 objective, attributed gains
(consumed interface, spec §3/§6; used by `deterministic_label_propagation.cpp` and
`localized_kway_fm_core.h`) -/

/-- `Move` (spec §3): node, source block `from`, target block `to`, gain.  `from` is a
Lean keyword, hence `from_`/`to_`. -/
structure Move where
  node : Nat
  from_ : Nat
  to_ : Nat
  gain : Int
deriving DecidableEq

/-- A hyperedge: weight `ω(e)` and pin list. -/
structure Hyperedge where
  weight : Int
  pins : List Nat
deriving DecidableEq

/-- A hypergraph is its list of hyperedges. -/
abbrev Hypergraph := List Hyperedge

/-- A k-way assignment `π : V → {0, …, k-1}`. -/
abbrev Partition := Nat → Nat

/-- `pinCountInPart(e, p)` (spec §3): number of pins of `e` in block `p`. -/
def pinCount (π : Partition) (e : Hyperedge) (p : Nat) : Nat :=
  e.pins.countP (fun v => decide (π v = p))

/-- `connectivity(e) = |{p : pinCountInPart[e,p] > 0}|` (spec §3), computed as the
number of distinct blocks among the pins. -/
def connectivity (π : Partition) (e : Hyperedge) : Nat :=
  ((e.pins.map π).dedup).length

/-- The km1 objective `Σ_e ω(e)·(λ(e) − 1)` (spec, glossary). -/
def km1 (H : Hypergraph) (π : Partition) : Int :=
  (H.map (fun e => e.weight * ((connectivity π e : Int) - 1))).sum

/-- The partition after `changeNodePart(m.node, m.from, m.to, …)` (spec §6; the
four-argument overload used by `performMoveWithAttributedGain` at
deterministic_label_propagation.cpp:137 carries no weight budget and always moves). -/
def applyMove (π : Partition) (m : Move) : Partition :=
  Function.update π m.node m.to_

/-- The attributed gain computed by `performMoveWithAttributedGain`
(deterministic_label_propagation.cpp:131-137): `changeNodePart` invokes the
`objective_delta` callback once per hyperedge incident to the moved node with the
post-move pin counts, and `Km1AttributedGains::gain` charges `ω(e)` when the move
opens the target block in `e` (`pin_count_in_to_part_after == 1`) and credits `ω(e)`
when it empties the source block (`pin_count_in_from_part_after == 0`); the callback
accumulates the negated sum, yielding the signed objective improvement. -/
def moveAttributedGain (H : Hypergraph) (π : Partition) (m : Move) : Int :=
  ((H.filter (fun e => decide (m.node ∈ e.pins))).map
    (fun e =>
      (if pinCount (applyMove π m) e m.from_ = 0 then e.weight else 0)
      - (if pinCount (applyMove π m) e m.to_ = 1 then e.weight else 0))).sum

/-- Applying a list of moves in order (the sequential semantics of `applyMovesIf`,
deterministic_label_propagation.cpp:159-174, which performs
`performMoveWithAttributedGain` on every selected move and adds up the attributed
gains; integer addition makes the reduction order irrelevant). -/
def applyAll (π : Partition) : List Move → Partition
  | [] => π
  | m :: rest => applyAll (applyMove π m) rest

/-- Like `applyAll` but also accumulating the attributed gains, as
`applyMovesIf` does with `tbb::parallel_reduce`. -/
def applyMovesWithGain (H : Hypergraph) : Partition → List Move → Partition × Int
  | π, [] => (π, 0)
  | π, m :: rest =>
    let r := applyMovesWithGain H (applyMove π m) rest
    (r.1, moveAttributedGain H π m + r.2)

/-- Well-formedness of a move sequence against the current partition: every move is
applied while its node is in its recorded source block, and is a real move
(`from ≠ to`).  This is the state of affairs the refiners guarantee: a buffered move
stores `from = partID(node)` and only one move per node is buffered per sub-round. -/
def wfMoveSeq : Partition → List Move → Bool
  | _, [] => true
  | π, m :: rest =>
    decide (π m.node = m.from_) && decide (m.from_ ≠ m.to_) && wfMoveSeq (applyMove π m) rest

/-- The gain fields of a move sequence agree with the attributed gains at the moment
each move is applied (what the recalculation asserts at
deterministic_label_propagation.cpp:581-596, and what exact sequential gain
computation guarantees for the FM move log). -/
def gainsMatchAttributed (H : Hypergraph) : Partition → List Move → Bool
  | _, [] => true
  | π, m :: rest =>
    decide (m.gain = moveAttributedGain H π m) && gainsMatchAttributed H (applyMove π m) rest

/-- `std::swap(moves[pos].from, moves[pos].to)`
(deterministic_label_propagation.cpp:279, 389): the reverse move. -/
def swapMove (m : Move) : Move :=
  { m with from_ := m.to_, to_ := m.from_ }

/-- The apply-and-maybe-revert tail of `applyMovesSortedByGainAndRevertUnbalanced`
(deterministic_label_propagation.cpp:272-287): apply every move that was not
invalidated by the balance-repair passes (`ms` pairs each move with its
`isValid()` flag); if the realized attributed gain is negative, re-apply every one of
those moves with `from` and `to` swapped and add the attributed gains of that second
pass to the result.  The same shape ends
`applyMovesByMaximalPrefixesInBlockPairs` (deterministic_label_propagation.cpp:373-397)
with the selected set being the per-direction best prefixes. -/
def applyMovesAndRevertLowGain (H : Hypergraph) (π : Partition)
    (ms : List (Move × Bool)) : Partition × Int :=
  let valid := (ms.filter (fun p => p.2)).map (fun p => p.1)
  let fwd := applyMovesWithGain H π valid
  if fwd.2 < 0 then
    let rev := applyMovesWithGain H fwd.1 (valid.map swapMove)
    (rev.1, fwd.2 + rev.2)
  else fwd

/-! ### Localized FM: best-prefix bookkeeping and rollback
(`localized_kway_fm_core.h:216-270, 482-490`) -/

/-- The best-improvement bookkeeping of the FM search loop
(localized_kway_fm_core.h:238-259): `est` accumulates `m.gain` into
`estimatedImprovement`; the best prefix is advanced when `estimatedImprovement >
bestImprovement`, or when it ties and the configured secondary test holds (the
`allow_zero_gain_moves` switch or the `toWeight + w(u) < heaviestPartWeight` balance
test), abstracted as the predicate `cond` of the move index.  Returns
`(bestImprovement, bestImprovementIndex)`. -/
def fmScanAux (cond : Nat → Bool) :
    Nat → Int → Int → Nat → List Int → Int × Nat
  | _, _, best, bestIdx, [] => (best, bestIdx)
  | i, est, best, bestIdx, g :: rest =>
    if best < est + g ∨ (best ≤ est + g ∧ cond i) then
      fmScanAux cond (i + 1) (est + g) (est + g) (i + 1) rest
    else
      fmScanAux cond (i + 1) (est + g) best bestIdx rest

/-- `(bestImprovement, bestImprovementIndex)` over a whole move-gain sequence,
starting from the initial values 0 and 0. -/
def fmBestImprovementScan (gains : List Int) (cond : Nat → Bool) : Int × Nat :=
  fmScanAux cond 0 0 0 0 gains

/-- A localized FM search on the global hypergraph followed by
`revertToBestLocalPrefix` (localized_kway_fm_core.h:482-490): all logged moves were
applied in order; the rollback walks the log backwards past `bestGainIndex`, applying
each move with source and target exchanged. -/
def fmApplyAndRevertToBest (π : Partition) (ms : List Move) (bestIdx : Nat) :
    Partition :=
  applyAll (applyAll π ms) (((ms.drop bestIdx).reverse).map swapMove)

/-! ### LP apply strategy B2: gain recalculation prefix selection
(`deterministic_label_propagation.cpp:601-635`) -/

/-- The count of overloaded blocks (deterministic_label_propagation.cpp:605-610). -/
def numOverloaded (k : Nat) (pw maxw : Nat → Int) : Nat :=
  ((List.range k).filter (fun i => decide (maxw i < pw i))).length

/-- `part_weights[m.from] -= w(m.node); part_weights[m.to] += w(m.node)`
(deterministic_label_propagation.cpp:623-624). -/
def pwAfterMove (w : Nat → Int) (pw : Nat → Int) (m : Move) : Nat → Int :=
  let pw1 := Function.update pw m.from_ (pw m.from_ - w m.node)
  Function.update pw1 m.to_ (pw1 m.to_ + w m.node)

/-- Part weights after a prefix of moves. -/
def pwAfterMoves (w : Nat → Int) (pw : Nat → Int) (ms : List Move) : Nat → Int :=
  ms.foldl (pwAfterMove w) pw

/-- The prefix-selection loop of `applyMovesSortedByGainWithRecalculation`
(deterministic_label_propagation.cpp:614-630): walk the sorted moves, update the
overloaded-block count incrementally from the pre-move part weights, accumulate the
recalculated gains, and remember the last position at which the gain sum is at least
the best so far while the overloaded count does not exceed
`num_overloaded_blocks_before_pass` (`novl0`).  Returns `(best_gain, best_index)`. -/
def recalcScanAux (w maxw : Nat → Int) (novl0 : Nat) :
    (Nat → Int) → Nat → Int → Int → Nat → Nat → List Move → Int × Nat
  | _, _, _, best, bestIdx, _, [] => (best, bestIdx)
  | pw, novl, gsum, best, bestIdx, pos, m :: rest =>
    let novl' :=
      novl
      - (if maxw m.from_ < pw m.from_ ∧ pw m.from_ - w m.node ≤ maxw m.from_
         then 1 else 0)
      + (if pw m.to_ ≤ maxw m.to_ ∧ maxw m.to_ < pw m.to_ + w m.node then 1 else 0)
    if novl' ≤ novl0 ∧ best ≤ gsum + m.gain then
      recalcScanAux w maxw novl0 (pwAfterMove w pw m) novl' (gsum + m.gain)
        (gsum + m.gain) (pos + 1) (pos + 1) rest
    else
      recalcScanAux w maxw novl0 (pwAfterMove w pw m) novl' (gsum + m.gain)
        best bestIdx (pos + 1) rest

/-- `(best_gain, best_index)` of `applyMovesSortedByGainWithRecalculation` for the
(already sorted, already recalculated) move sequence `ms`, starting from the actual
part weights `pw`. -/
def recalcBestPrefEnds (w maxw : Nat → Int) (k : Nat) (pw : Nat → Int)
    (ms : List Move) : Int × Nat :=
  recalcScanAux w maxw (numOverloaded k pw maxw) pw (numOverloaded k pw maxw)
    0 0 0 0 ms

/-- The tail of `applyMovesSortedByGainWithRecalculation`
(deterministic_label_propagation.cpp:614-635): select `(best_gain, best_index)`,
apply exactly the moves before `best_index` (`applyMovesIf` with the constant-true
predicate over `[0, best_index)`), and return `best_gain`. -/
def recalcSelectAndApply (H : Hypergraph) (π : Partition) (w maxw : Nat → Int)
    (k : Nat) (pw : Nat → Int) (ms : List Move) : Partition × Int :=
  let sel := recalcBestPrefEnds w maxw k pw ms
  (applyAll π (ms.take sel.2), sel.1)

/-! ### LP apply strategy A and the sub-round pipeline
(`deterministic_label_propagation.cpp:71-107, 290-398`) -/

/-- The sorting relation of the LP apply strategies: the reflexive totalization of
the strict comparator `m1.gain > m2.gain || (m1.gain == m2.gain && m1.node < m2.node)`
used at deterministic_label_propagation.cpp:202-204, 332-334 and 516-518. -/
def moveSortRel (m1 m2 : Move) : Prop :=
  m2.gain < m1.gain ∨ (m1.gain = m2.gain ∧ m1.node ≤ m2.node)

instance : DecidableRel moveSortRel := fun m1 m2 => by
  unfold moveSortRel
  exact instDecidableOr

instance : IsTotal Move moveSortRel := by
  constructor
  intro a b
  unfold moveSortRel
  omega

instance : IsTrans Move moveSortRel := by
  constructor
  intro a b c hab hbc
  unfold moveSortRel at hab hbc ⊢
  omega

/-- The sorted order produced by `tbb::parallel_sort` with the gain/node comparator:
total and transitive, and antisymmetric on any collection in which the node ids are
distinct, so the sorted sequence is unique and equals the insertion sort
(`sortMoves_unique` below justifies this model of the unstable parallel sort). -/
def sortMoves (l : List Move) : List Move :=
  l.insertionSort moveSortRel

/-- Node ids determine moves within a buffer (each node is processed once per
sub-round, so the buffered move is a function of its node). -/
def nodesInjOn (l : List Move) : Prop :=
  ∀ m1 ∈ l, ∀ m2 ∈ l, m1.node = m2.node → m1 = m2

instance (l : List Move) : Decidable (nodesInjOn l) := by
  unfold nodesInjOn
  infer_instance

/-- `phg.partWeight(p)` over an explicit vertex list (spec §3: the sum of the node
weights of the vertices currently in block `p`). -/
def partWeightOf (nodes : List Nat) (w : Nat → Int) (π : Partition) (p : Nat) : Int :=
  ((nodes.filter (fun v => decide (π v = p))).map w).sum

/-- The direction bucket of `(from, to)` after the counting sort by direction key and
the per-bucket `tbb::parallel_sort` (deterministic_label_propagation.cpp:299-341):
the bucket's content is exactly the buffered moves with that direction, and sorting
it by the total gain/node order makes the result independent of the intermediate
(chunking-dependent) order. -/
def directionBucket (l : List Move) (p1 p2 : Nat) : List Move :=
  sortMoves (l.filter (fun m => decide (m.from_ = p1) && decide (m.to_ = p2)))

/-- `has_moves(p1, p2)` (deterministic_label_propagation.cpp:304-307): the direction
bucket is nonempty (the counting-sort bucket and the sorted bucket have the same
emptiness). -/
def hasMovesOf (buckets : Nat → Nat → List Move) (p1 p2 : Nat) : Bool :=
  !(buckets p1 p2).isEmpty

/-- `involvements[p]` (deterministic_label_propagation.cpp:311-324): the number of
blocks sending traffic into `p`. -/
def involvementsOf (buckets : Nat → Nat → List Move) (k p : Nat) : Nat :=
  ((List.range k).filter (fun q => decide (q ≠ p) && hasMovesOf buckets q p)).length

/-- `relevant_block_pairs` (deterministic_label_propagation.cpp:309-315): the pairs
`p1 < p2` with traffic in either direction, in double-loop order. -/
def relevantPairsOf (buckets : Nat → Nat → List Move) (k : Nat) : List (Nat × Nat) :=
  (List.range k).flatMap (fun p1 =>
    ((List.range k).filter (fun p2 =>
      decide (p1 < p2) && (hasMovesOf buckets p1 p2 || hasMovesOf buckets p2 p1))).map
      (fun p2 => (p1, p2)))

/-- The segment of `cumulative_node_weights` holding the two direction buckets of a
block pair (deterministic_label_propagation.cpp:336-340), in pair-local coordinates:
positions `[0, |b1|)` hold the inclusive prefix sums of the node weights of `b1`,
positions `[|b1|, |b1|+|b2|)` those of `b2`. -/
def pairCumArray (w : Nat → Int) (b1 b2 : List Move) : Int → Int :=
  fun i =>
    if 0 ≤ i ∧ i < (b1.length : Int) then
      ((b1.take (i.toNat + 1)).map (fun m => w m.node)).sum
    else if (b1.length : Int) ≤ i ∧ i < (b1.length : Int) + (b2.length : Int) then
      ((b2.take ((i - (b1.length : Int)).toNat + 1)).map (fun m => w m.node)).sum
    else 0

/-- The per-pair prefix computation of `applyMovesByMaximalPrefixesInBlockPairs`
(deterministic_label_propagation.cpp:343-370): budgets from the current part weights,
slack divided by the involvement counts (C++ division truncates toward zero, `tdiv`),
then `findBestPrefixesRecursive` on the pair-local array with
`p1_invalid = p1_begin - 1 = -1` and `p2_invalid = p2_begin - 1 = |b1| - 1`; an
invalid result is replaced by the range begins, i.e. nothing is applied.  Returns how
many moves of each direction bucket are applied. -/
def pairApplyCounts (nodes : List Nat) (w maxw : Nat → Int) (k : Nat) (π : Partition)
    (buckets : Nat → Nat → List Move) (pr : Nat × Nat) : Nat × Nat :=
  let b1 := buckets pr.1 pr.2
  let b2 := buckets pr.2 pr.1
  let n1 : Int := b1.length
  let n2 : Int := b2.length
  let c := pairCumArray w b1 b2
  let budget1 := maxw pr.1 - partWeightOf nodes w π pr.1
  let budget2 := maxw pr.2 - partWeightOf nodes w π pr.2
  let lb := -(budget1.tdiv (max 1 ((involvementsOf buckets k pr.1 : Int))))
  let ub := budget2.tdiv (max 1 ((involvementsOf buckets k pr.2 : Int)))
  let bp := findBestPrefixesRecursive c (-1) (n1 - 1) lb ub 0 n1 n1 (n1 + n2)
  if bp.1 = invalidPos then (0, 0) else (bp.1.toNat, (bp.2 - n1).toNat)

/-- `applyMovesByMaximalPrefixesInBlockPairs`
(deterministic_label_propagation.cpp:290-398) as a function of the direction-bucket
map: apply the per-pair best prefixes (`applyMovesIf` with the
`pos < swap_prefix[...]` predicate), buffer the rest for the second apply step, and
revert everything if the attributed gain of the applied set is negative.  The applied
and residual moves are listed in the deterministic pair order; the resulting
partition and total attributed gain do not depend on that order.  Returns
`(partition, gain, reverted, residual moves)`. -/
def applyMovesByMaximalPrefixesCore (H : Hypergraph) (nodes : List Nat)
    (w maxw : Nat → Int) (k : Nat) (π : Partition)
    (buckets : Nat → Nat → List Move) : Partition × Int × Bool × List Move :=
  let prs := relevantPairsOf buckets k
  let applied := prs.flatMap (fun pr =>
    let cnt := pairApplyCounts nodes w maxw k π buckets pr
    (buckets pr.1 pr.2).take cnt.1 ++ (buckets pr.2 pr.1).take cnt.2)
  let residual := prs.flatMap (fun pr =>
    let cnt := pairApplyCounts nodes w maxw k π buckets pr
    (buckets pr.1 pr.2).drop cnt.1 ++ (buckets pr.2 pr.1).drop cnt.2)
  let fwd := applyMovesWithGain H π applied
  if fwd.2 < 0 then
    let rev := applyMovesWithGain H fwd.1 (applied.map swapMove)
    (rev.1, fwd.2 + rev.2, true, residual)
  else (fwd.1, fwd.2, false, residual)

/-- `applyMovesByMaximalPrefixesInBlockPairs` on a move buffer `l`: the buckets are
the sorted direction buckets of `l`. -/
def applyMovesByMaximalPrefixesModel (H : Hypergraph) (nodes : List Nat)
    (w maxw : Nat → Int) (k : Nat) (π : Partition) (l : List Move) :
    Partition × Int × Bool × List Move :=
  applyMovesByMaximalPrefixesCore H nodes w maxw k π (directionBucket l)

/-- One LP sub-round apply phase (deterministic_label_propagation.cpp:91-104):
strategy A on the buffered moves, then — when it improved and residual moves remain —
strategy B2 (`recalculate_gains_on_second_apply`) or strategy B1 on the residual
moves sorted by the total gain/node order.  The balance-repair passes of B1
(deterministic_label_propagation.cpp:219-270) are a deterministic function of the
sorted sequence; they are abstracted as the parameter `invalidSel`, which computes
the `isValid()` flags from it.  Returns the partition and the sub-round improvement. -/
def lpSubRoundModel (H : Hypergraph) (nodes : List Nat) (w maxw : Nat → Int)
    (k : Nat) (recalcFlag : Bool) (invalidSel : List Move → List Bool)
    (π : Partition) (l : List Move) : Partition × Int :=
  let a := applyMovesByMaximalPrefixesModel H nodes w maxw k π l
  let residual := a.2.2.2
  if 0 < a.2.1 ∧ residual ≠ [] then
    let sorted := sortMoves residual
    if recalcFlag then
      let b := recalcSelectAndApply H a.1 w maxw k (partWeightOf nodes w a.1) sorted
      (b.1, a.2.1 + b.2)
    else
      let b := applyMovesAndRevertLowGain H a.1 (sorted.zip (invalidSel sorted))
      (b.1, a.2.1 + b.2)
  else (a.1, a.2.1)

/-! ## Part B — theorems -/

/-! ### Sorting: uniqueness of the gain/node order on node-injective buffers -/

/-- Two sorted lists that are permutations of each other are equal, provided node ids
determine the moves.  (`moveSortRel` is antisymmetric only up to (gain, node), which
suffices on node-injective collections.) -/
theorem sorted_perm_eq_of_nodesInj : ∀ (l₁ l₂ : List Move), l₁.Perm l₂ →
    l₁.Sorted moveSortRel → l₂.Sorted moveSortRel → nodesInjOn l₁ → l₁ = l₂ := by
  intro l₁
  induction l₁ with
  | nil =>
    intro l₂ hp _ _ _
    exact hp.nil_eq
  | cons a t₁ ih =>
    intro l₂ hp hs₁ hs₂ hinj
    cases l₂ with
    | nil => exact absurd hp.symm.nil_eq (by simp)
    | cons b t₂ =>
      have hab : a = b := by
        by_cases hab : a = b
        · exact hab
        · have ha2 : a ∈ b :: t₂ := hp.subset (by simp)
          have hb1 : b ∈ a :: t₁ := hp.symm.subset (by simp)
          have hat2 : a ∈ t₂ := by
            rcases ha2 with _ | h
            · exact absurd rfl hab
            · assumption
          have hbt1 : b ∈ t₁ := by
            rcases hb1 with _ | h
            · exact absurd rfl (fun h => hab h.symm)
            · assumption
          have hr1 : moveSortRel a b := (List.sorted_cons.mp hs₁).1 b hbt1
          have hr2 : moveSortRel b a := (List.sorted_cons.mp hs₂).1 a hat2
          have hnode : a.node = b.node := by
            unfold moveSortRel at hr1 hr2
            omega
          exact hinj a (by simp) b (by simp [hbt1]) hnode
      subst hab
      have ht : t₁.Perm t₂ := (List.perm_cons a).mp hp
      have := ih t₂ ht (List.sorted_cons.mp hs₁).2 (List.sorted_cons.mp hs₂).2
        (fun m1 h1 m2 h2 h => hinj m1 (by simp [h1]) m2 (by simp [h2]) h)
      rw [this]

/-- `nodesInjOn` transfers along permutations. -/
theorem nodesInjOn_of_perm {l₁ l₂ : List Move} (hp : l₁.Perm l₂)
    (hinj : nodesInjOn l₁) : nodesInjOn l₂ := by
  intro m1 h1 m2 h2 h
  exact hinj m1 (hp.symm.subset h1) m2 (hp.symm.subset h2) h

/-- Sorting by the gain/node order is invariant under permutation of a node-injective
buffer: any run of the unstable `tbb::parallel_sort` produces this one list. -/
theorem sortMoves_eq_of_perm (l₁ l₂ : List Move) (hp : l₁.Perm l₂)
    (hinj : nodesInjOn l₁) : sortMoves l₁ = sortMoves l₂ := by
  apply sorted_perm_eq_of_nodesInj
  · exact (List.perm_insertionSort moveSortRel l₁).trans
      (hp.trans (List.perm_insertionSort moveSortRel l₂).symm)
  · exact List.sorted_insertionSort moveSortRel l₁
  · exact List.sorted_insertionSort moveSortRel l₂
  · exact nodesInjOn_of_perm (List.perm_insertionSort moveSortRel l₁).symm hinj

/-- The direction buckets are a function of the buffer's move multiset alone. -/
theorem directionBucket_eq_of_perm (l₁ l₂ : List Move) (hp : l₁.Perm l₂)
    (hinj : nodesInjOn l₁) : directionBucket l₁ = directionBucket l₂ := by
  funext p q
  unfold directionBucket
  apply sortMoves_eq_of_perm
  · exact hp.filter _
  · intro m1 h1 m2 h2 h
    exact hinj m1 (List.mem_of_mem_filter h1) m2 (List.mem_of_mem_filter h2) h

/-- C1: determinism of the LP refiner across thread counts.  For a fixed partition,
seed, k and configuration, the number of worker threads influences a sub-round only
through (i) the order in which the per-thread buffers deliver the proposed moves and
(ii) the chunking of the counting sort and of `tbb::parallel_sort` — i.e. the move
*buffer order*, never the move *set* (each position of the permutation proposes its
best move against the unchanged pre-round partition).  The theorem: the whole
sub-round apply phase — strategy A (`applyMovesByMaximalPrefixesInBlockPairs`)
followed by strategy B1 or B2 on the residual moves — produces identical partitions,
gains, revert flags and residual buffers on any two orderings of the same move
multiset.  Hence `refineImpl`, a composition of such sub-rounds (with thread-count
independent permutations and sub-round bounds), ends in the same partition
regardless of the number of threads. -/
theorem C1_lp_subround_thread_count_independent (H : Hypergraph) (nodes : List Nat)
    (w maxw : Nat → Int) (k : Nat) (recalcFlag : Bool)
    (invalidSel : List Move → List Bool) (π : Partition) (l₁ l₂ : List Move)
    (hp : l₁.Perm l₂) (hinj : nodesInjOn l₁) :
    lpSubRoundModel H nodes w maxw k recalcFlag invalidSel π l₁ =
      lpSubRoundModel H nodes w maxw k recalcFlag invalidSel π l₂
    ∧ applyMovesByMaximalPrefixesModel H nodes w maxw k π l₁ =
      applyMovesByMaximalPrefixesModel H nodes w maxw k π l₂ := by
  have hb := directionBucket_eq_of_perm l₁ l₂ hp hinj
  constructor
  · unfold lpSubRoundModel applyMovesByMaximalPrefixesModel
    rw [hb]
  · unfold applyMovesByMaximalPrefixesModel
    rw [hb]

/-! ### km1 attributed-gain calculus -/

/-- `connectivity` as a finset cardinality. -/
theorem connectivity_eq_card (π : Partition) (e : Hyperedge) :
    connectivity π e = ((e.pins.map π).toFinset).card := by
  unfold connectivity
  rw [List.card_toFinset]

/-- A vertex outside `e` does not change `e`'s connectivity when moved. -/
theorem connectivity_update_of_not_mem (π : Partition) (e : Hyperedge) (v b : Nat)
    (hv : v ∉ e.pins) : connectivity (Function.update π v b) e = connectivity π e := by
  unfold connectivity
  have : e.pins.map (Function.update π v b) = e.pins.map π := by
    apply List.map_congr_left
    intro u hu
    have huv : u ≠ v := by
      intro h
      subst h
      exact hv hu
    exact Function.update_noteq huv b π
  rw [this]

/-- Nor its pin counts. -/
theorem pinCount_update_of_not_mem (π : Partition) (e : Hyperedge) (v b p : Nat)
    (hv : v ∉ e.pins) : pinCount (Function.update π v b) e p = pinCount π e p := by
  unfold pinCount
  apply List.countP_congr
  intro u hu
  have huv : u ≠ v := by
    intro h
    subst h
    exact hv hu
  have : Function.update π v b u = π u := Function.update_noteq huv b π
  simp [this]

/-- The connectivity delta of one move on one incident hyperedge, expressed through
the post-move pin counts exactly as the `SynchronizedEdgeUpdate` callback sees them:
the target block is opened iff its post-move pin count is 1, the source block is
emptied iff its post-move pin count is 0. -/
theorem connectivity_update_of_mem (π : Partition) (e : Hyperedge) (v b : Nat)
    (hv : v ∈ e.pins) (hnd : e.pins.Nodup) (hne : π v ≠ b) :
    (connectivity (Function.update π v b) e : Int) - (connectivity π e : Int)
      = (if pinCount (Function.update π v b) e b = 1 then 1 else 0)
      - (if pinCount (Function.update π v b) e (π v) = 0 then 1 else 0) := by
  set π' := Function.update π v b with hπ'
  set A : Finset Nat := ((e.pins.erase v).map π).toFinset with hA
  have hperm : e.pins.Perm (v :: e.pins.erase v) := List.perm_cons_erase hv
  have hvne : v ∉ e.pins.erase v := by
    intro hmem
    exact absurd rfl ((hnd.mem_erase_iff.mp hmem).1)
  have hmap : (e.pins.erase v).map π' = (e.pins.erase v).map π := by
    apply List.map_congr_left
    intro u hu
    have huv : u ≠ v := (hnd.mem_erase_iff.mp hu).1
    exact Function.update_noteq huv b π
  -- the two connectivities as insertions into A
  have hconn : (e.pins.map π).toFinset = insert (π v) A := by
    rw [List.toFinset_eq_of_perm _ _ (hperm.map π)]
    simp [hA]
  have hconn' : (e.pins.map π').toFinset = insert b A := by
    rw [List.toFinset_eq_of_perm _ _ (hperm.map π')]
    have : π' v = b := Function.update_same v b π
    simp [this, hmap, hA]
  -- the two pin counts as counts over the other pins
  have hcfrom : pinCount π' e (π v) = (e.pins.erase v).countP (fun u => decide (π u = π v)) := by
    unfold pinCount
    rw [hperm.countP_eq]
    rw [List.countP_cons]
    have hπ'v : π' v = b := Function.update_same v b π
    have hne' : π' v ≠ π v := by
      rw [hπ'v]
      exact fun h => hne h.symm
    have hcong : (e.pins.erase v).countP (fun u => decide (π' u = π v))
        = (e.pins.erase v).countP (fun u => decide (π u = π v)) := by
      apply List.countP_congr
      intro u hu
      have huv : u ≠ v := (hnd.mem_erase_iff.mp hu).1
      simp [hπ', Function.update_noteq huv b π]
    simp [hne', hcong]
  have hcto : pinCount π' e b = 1 + (e.pins.erase v).countP (fun u => decide (π u = b)) := by
    unfold pinCount
    rw [hperm.countP_eq]
    rw [List.countP_cons]
    have hπ'v : π' v = b := Function.update_same v b π
    have hcong : (e.pins.erase v).countP (fun u => decide (π' u = b))
        = (e.pins.erase v).countP (fun u => decide (π u = b)) := by
      apply List.countP_congr
      intro u hu
      have huv : u ≠ v := (hnd.mem_erase_iff.mp hu).1
      simp [hπ', Function.update_noteq huv b π]
    simp [hπ'v, hcong]
    omega
  -- membership in A in terms of the counts
  have hmemA : ∀ p : Nat, p ∈ A ↔ 0 < (e.pins.erase v).countP (fun u => decide (π u = p)) := by
    intro p
    rw [hA]
    rw [List.mem_toFinset, List.countP_pos]
    constructor
    · intro hp
      rcases List.mem_map.mp hp with ⟨u, hu, hup⟩
      exact ⟨u, hu, by simp [hup]⟩
    · intro ⟨u, hu, hup⟩
      exact List.mem_map.mpr ⟨u, hu, by simpa using hup⟩
  rw [connectivity_eq_card, connectivity_eq_card, hconn, hconn']
  by_cases hbA : b ∈ A
  · have h1 : insert b A = A := Finset.insert_eq_self.mpr hbA
    have h2 : pinCount π' e b ≠ 1 := by
      rw [hcto]
      have := (hmemA b).mp hbA
      omega
    by_cases hfA : π v ∈ A
    · have h3 : insert (π v) A = A := Finset.insert_eq_self.mpr hfA
      have h4 : pinCount π' e (π v) ≠ 0 := by
        rw [hcfrom]
        have := (hmemA (π v)).mp hfA
        omega
      rw [h1, h3]
      simp [h2, h4]
    · have h3 : (insert (π v) A).card = A.card + 1 := Finset.card_insert_of_not_mem hfA
      have h4 : pinCount π' e (π v) = 0 := by
        rw [hcfrom]
        by_contra hc
        exact hfA ((hmemA (π v)).mpr (by omega))
      rw [h1, h3]
      simp [h2, h4]
  · have h1 : (insert b A).card = A.card + 1 := Finset.card_insert_of_not_mem hbA
    have h2 : pinCount π' e b = 1 := by
      rw [hcto]
      by_cases hc : 0 < (e.pins.erase v).countP (fun u => decide (π u = b))
      · exact absurd ((hmemA b).mpr hc) hbA
      · omega
    by_cases hfA : π v ∈ A
    · have h3 : insert (π v) A = A := Finset.insert_eq_self.mpr hfA
      have h4 : pinCount π' e (π v) ≠ 0 := by
        rw [hcfrom]
        have := (hmemA (π v)).mp hfA
        omega
      rw [h1, h3]
      simp [h2, h4]
    · have h3 : (insert (π v) A).card = A.card + 1 := Finset.card_insert_of_not_mem hfA
      have h4 : pinCount π' e (π v) = 0 := by
        rw [hcfrom]
        by_contra hc
        exact hfA ((hmemA (π v)).mpr (by omega))
      rw [h1, h3]
      simp [h2, h4]

/-- The attributed gain of one move is exactly the km1 decrease it causes. -/
theorem moveAttributedGain_eq_km1_diff (H : Hypergraph) (π : Partition) (m : Move)
    (hnd : ∀ e ∈ H, e.pins.Nodup) (hfrom : π m.node = m.from_)
    (hne : m.from_ ≠ m.to_) :
    moveAttributedGain H π m = km1 H π - km1 H (applyMove π m) := by
  induction H with
  | nil => simp [moveAttributedGain, km1]
  | cons e rest ih =>
    have hndr : ∀ e' ∈ rest, e'.pins.Nodup := fun e' h => hnd e' (by simp [h])
    have ihr := ih hndr
    by_cases hv : m.node ∈ e.pins
    · have hd := connectivity_update_of_mem π e m.node m.to_ hv (hnd e (by simp))
        (by rw [hfrom]; exact hne)
      rw [hfrom] at hd
      unfold moveAttributedGain km1 applyMove at ihr ⊢
      rw [List.filter_cons_of_pos (by simp [hv])]
      simp only [List.map_cons, List.sum_cons]
      rw [ihr]
      by_cases hc1 : pinCount (Function.update π m.node m.to_) e m.from_ = 0
      · by_cases hc2 : pinCount (Function.update π m.node m.to_) e m.to_ = 1
        · rw [if_pos hc1, if_pos hc2] at hd
          rw [if_pos hc1, if_pos hc2]
          have hcc : (connectivity (Function.update π m.node m.to_) e : Int)
              = (connectivity π e : Int) := by omega
          rw [hcc]
          ring
        · rw [if_pos hc1, if_neg hc2] at hd
          rw [if_pos hc1, if_neg hc2]
          have hcc : (connectivity (Function.update π m.node m.to_) e : Int)
              = (connectivity π e : Int) - 1 := by omega
          rw [hcc]
          ring
      · by_cases hc2 : pinCount (Function.update π m.node m.to_) e m.to_ = 1
        · rw [if_neg hc1, if_pos hc2] at hd
          rw [if_neg hc1, if_pos hc2]
          have hcc : (connectivity (Function.update π m.node m.to_) e : Int)
              = (connectivity π e : Int) + 1 := by omega
          rw [hcc]
          ring
        · rw [if_neg hc1, if_neg hc2] at hd
          rw [if_neg hc1, if_neg hc2]
          have hcc : (connectivity (Function.update π m.node m.to_) e : Int)
              = (connectivity π e : Int) := by omega
          rw [hcc]
          ring
    · have hconn := connectivity_update_of_not_mem π e m.node m.to_ hv
      unfold moveAttributedGain km1 applyMove at ihr ⊢
      rw [List.filter_cons_of_neg (by simp [hv])]
      simp only [List.map_cons, List.sum_cons]
      rw [hconn, ihr]
      ring

/-- `applyMovesWithGain` moves the partition exactly as `applyAll`. -/
theorem applyMovesWithGain_fst (H : Hypergraph) :
    ∀ (ms : List Move) (π : Partition), (applyMovesWithGain H π ms).1 = applyAll π ms := by
  intro ms
  induction ms with
  | nil => intro π; rfl
  | cons m rest ih => intro π; exact ih (applyMove π m)

/-- Telescoping: the accumulated attributed gain of a well-formed move sequence is
the total km1 decrease. -/
theorem applyMovesWithGain_snd (H : Hypergraph) (hnd : ∀ e ∈ H, e.pins.Nodup) :
    ∀ (ms : List Move) (π : Partition), wfMoveSeq π ms = true →
      (applyMovesWithGain H π ms).2 = km1 H π - km1 H (applyMovesWithGain H π ms).1 := by
  intro ms
  induction ms with
  | nil => intro π _; simp [applyMovesWithGain]
  | cons m rest ih =>
    intro π hwf
    unfold wfMoveSeq at hwf
    simp only [Bool.and_eq_true, decide_eq_true_eq] at hwf
    obtain ⟨⟨h1, h2⟩, h3⟩ := hwf
    have hgain := moveAttributedGain_eq_km1_diff H π m hnd h1 h2
    unfold applyMovesWithGain
    simp only
    rw [ih (applyMove π m) h3, hgain]
    ring

/-- A buffer of moves with pairwise-distinct nodes, each recorded from its current
block, is well-formed in any order. -/
theorem wfMoveSeq_of_static :
    ∀ (ms : List Move) (π : Partition), (ms.map Move.node).Nodup →
      (∀ m ∈ ms, π m.node = m.from_ ∧ m.from_ ≠ m.to_) → wfMoveSeq π ms = true := by
  intro ms
  induction ms with
  | nil => intro π _ _; rfl
  | cons m rest ih =>
    intro π hnd hok
    have hm := hok m (by simp)
    have hnotin : m.node ∉ rest.map Move.node := (List.nodup_cons.mp hnd).1
    unfold wfMoveSeq
    simp only [Bool.and_eq_true, decide_eq_true_eq]
    refine ⟨⟨hm.1, hm.2⟩, ?_⟩
    apply ih (applyMove π m) (List.nodup_cons.mp hnd).2
    intro m' hm'
    have hne' : m'.node ≠ m.node := by
      intro h
      exact hnotin (h ▸ List.mem_map_of_mem Move.node hm')
    refine ⟨?_, (hok m' (by simp [hm'])).2⟩
    unfold applyMove
    rw [Function.update_noteq hne']
    exact (hok m' (by simp [hm'])).1

/-- Vertices not moved by a sequence keep their block. -/
theorem applyAll_apply_of_not_mem :
    ∀ (ms : List Move) (π : Partition) (v : Nat), v ∉ ms.map Move.node →
      applyAll π ms v = π v := by
  intro ms
  induction ms with
  | nil => intro π v _; rfl
  | cons m rest ih =>
    intro π v hv
    have hvm : v ≠ m.node := by
      intro h
      exact hv (by simp [h])
    have hvr : v ∉ rest.map Move.node := by
      intro h
      exact hv (by simp [h])
    unfold applyAll
    rw [ih (applyMove π m) v hvr]
    unfold applyMove
    exact Function.update_noteq hvm m.to_ π

/-- Each moved vertex ends in its move's target block (nodes pairwise distinct). -/
theorem applyAll_apply_of_mem :
    ∀ (ms : List Move) (π : Partition) (m : Move), (ms.map Move.node).Nodup →
      m ∈ ms → applyAll π ms m.node = m.to_ := by
  intro ms
  induction ms with
  | nil => intro π m _ h; cases h
  | cons m0 rest ih =>
    intro π m hnd hm
    rcases List.mem_cons.mp hm with heq | hmem
    · subst heq
      unfold applyAll
      rw [applyAll_apply_of_not_mem rest (applyMove π m) m.node (List.nodup_cons.mp hnd).1]
      unfold applyMove
      exact Function.update_same m.node m.to_ π
    · show applyAll (applyMove π m0) rest m.node = m.to_
      exact ih (applyMove π m0) m (List.nodup_cons.mp hnd).2 hmem

theorem applyAll_append (l₁ l₂ : List Move) :
    ∀ π : Partition, applyAll π (l₁ ++ l₂) = applyAll (applyAll π l₁) l₂ := by
  induction l₁ with
  | nil => intro π; rfl
  | cons m rest ih => intro π; exact ih (applyMove π m)

/-- Updating an unmoved vertex commutes with applying a sequence. -/
theorem applyAll_update_comm :
    ∀ (ms : List Move) (σ : Partition) (v : Nat) (b : Nat), v ∉ ms.map Move.node →
      applyAll (Function.update σ v b) ms = Function.update (applyAll σ ms) v b := by
  intro ms
  induction ms with
  | nil => intro σ v b _; rfl
  | cons m rest ih =>
    intro σ v b hv
    have hvm : v ≠ m.node := by
      intro h
      exact hv (by simp [h])
    have hvr : v ∉ rest.map Move.node := by
      intro h
      exact hv (by simp [h])
    unfold applyAll applyMove
    rw [Function.update_comm hvm]
    exact ih (Function.update σ m.node m.to_) v b hvr

/-- Applying the swapped moves in the same order restores the original partition
(pairwise-distinct nodes, each recorded from its current block). -/
theorem applyAll_swap_restore :
    ∀ (ms : List Move) (π : Partition), (ms.map Move.node).Nodup →
      (∀ m ∈ ms, π m.node = m.from_) →
      applyAll (applyAll π ms) (ms.map swapMove) = π := by
  intro ms
  induction ms with
  | nil => intro π _ _; rfl
  | cons m rest ih =>
    intro π hnd hok
    have hnotin : m.node ∉ rest.map Move.node := (List.nodup_cons.mp hnd).1
    show applyAll (applyAll (applyMove π m) rest) (swapMove m :: rest.map swapMove) = π
    unfold applyAll
    have hstep : applyMove (applyAll (applyMove π m) rest) (swapMove m)
        = applyAll π rest := by
      show Function.update (applyAll (applyMove π m) rest) m.node m.from_ = applyAll π rest
      rw [← applyAll_update_comm rest (applyMove π m) m.node m.from_ hnotin]
      unfold applyMove
      rw [Function.update_idem]
      rw [← hok m (by simp)]
      rw [Function.update_eq_self]
    rw [hstep]
    apply ih π
    · exact (List.nodup_cons.mp hnd).2
    · intro m' hm'
      exact hok m' (by simp [hm'])

/-- Undoing a well-formed move sequence in reverse order restores the partition
(the stack discipline of `revertToBestLocalPrefix`). -/
theorem applyAll_reverse_revert :
    ∀ (ms : List Move) (π : Partition), wfMoveSeq π ms = true →
      applyAll (applyAll π ms) ((ms.reverse).map swapMove) = π := by
  intro ms
  induction ms with
  | nil => intro π _; rfl
  | cons m rest ih =>
    intro π hwf
    unfold wfMoveSeq at hwf
    simp only [Bool.and_eq_true, decide_eq_true_eq] at hwf
    obtain ⟨⟨h1, _⟩, h3⟩ := hwf
    show applyAll (applyAll (applyMove π m) rest)
      (((m :: rest).reverse).map swapMove) = π
    rw [List.reverse_cons, List.map_append, applyAll_append]
    rw [ih (applyMove π m) h3]
    show applyMove (applyMove π m) (swapMove m) = π
    unfold applyMove swapMove
    simp only
    rw [Function.update_idem, ← h1, Function.update_eq_self]

/-- Well-formedness splits over concatenation. -/
theorem wfMoveSeq_append :
    ∀ (l₁ l₂ : List Move) (π : Partition),
      wfMoveSeq π (l₁ ++ l₂) = true ↔
        (wfMoveSeq π l₁ = true ∧ wfMoveSeq (applyAll π l₁) l₂ = true) := by
  intro l₁
  induction l₁ with
  | nil =>
    intro l₂ π
    show wfMoveSeq π l₂ = true ↔ (true = true ∧ wfMoveSeq π l₂ = true)
    tauto
  | cons m rest ih =>
    intro l₂ π
    have happ : applyAll π (m :: rest) = applyAll (applyMove π m) rest := rfl
    rw [List.cons_append]
    rw [show wfMoveSeq π (m :: (rest ++ l₂))
        = (decide (π m.node = m.from_) && decide (m.from_ ≠ m.to_)
          && wfMoveSeq (applyMove π m) (rest ++ l₂)) from rfl]
    rw [show wfMoveSeq π (m :: rest)
        = (decide (π m.node = m.from_) && decide (m.from_ ≠ m.to_)
          && wfMoveSeq (applyMove π m) rest) from rfl]
    rw [happ]
    simp only [Bool.and_eq_true]
    rw [ih l₂ (applyMove π m)]
    tauto

/-- Prefixes of well-formed sequences are well-formed. -/
theorem wfMoveSeq_take (k : Nat) (ms : List Move) (π : Partition)
    (h : wfMoveSeq π ms = true) : wfMoveSeq π (ms.take k) = true := by
  have := wfMoveSeq_append (ms.take k) (ms.drop k) π
  rw [List.take_append_drop] at this
  exact (this.mp h).1

/-- The drop part is well-formed from the prefix state. -/
theorem wfMoveSeq_drop (k : Nat) (ms : List Move) (π : Partition)
    (h : wfMoveSeq π ms = true) :
    wfMoveSeq (applyAll π (ms.take k)) (ms.drop k) = true := by
  have := wfMoveSeq_append (ms.take k) (ms.drop k) π
  rw [List.take_append_drop] at this
  exact (this.mp h).2

/-- When the recorded gains agree with the attributed gains, every prefix's recorded
gain sum is its accumulated attributed gain. -/
theorem gainSum_take_eq (H : Hypergraph) :
    ∀ (ms : List Move) (π : Partition) (k : Nat),
      gainsMatchAttributed H π ms = true →
      ((ms.take k).map Move.gain).sum = (applyMovesWithGain H π (ms.take k)).2 := by
  intro ms
  induction ms with
  | nil => intro π k _; simp [applyMovesWithGain]
  | cons m rest ih =>
    intro π k hg
    unfold gainsMatchAttributed at hg
    simp only [Bool.and_eq_true, decide_eq_true_eq] at hg
    cases k with
    | zero => simp [applyMovesWithGain]
    | succ k' =>
      show ((m :: rest.take k').map Move.gain).sum
          = (applyMovesWithGain H π (m :: rest.take k')).2
      unfold applyMovesWithGain
      simp only [List.map_cons, List.sum_cons]
      rw [ih (applyMove π m) k' hg.2, hg.1]

/-- The FM best-prefix bookkeeping: invariant of `fmScanAux`. -/
theorem fmScanAux_spec (cond : Nat → Bool) :
    ∀ (gs : List Int) (i : Nat) (est best : Int) (bestIdx : Nat),
      best ≤ (fmScanAux cond i est best bestIdx gs).1
      ∧ ((fmScanAux cond i est best bestIdx gs).1 = best
          ∧ (fmScanAux cond i est best bestIdx gs).2 = bestIdx
        ∨ ∃ k, 1 ≤ k ∧ k ≤ gs.length
            ∧ (fmScanAux cond i est best bestIdx gs).1 = est + (gs.take k).sum
            ∧ (fmScanAux cond i est best bestIdx gs).2 = i + k) := by
  intro gs
  induction gs with
  | nil =>
    intro i est best bestIdx
    exact ⟨le_refl _, Or.inl ⟨rfl, rfl⟩⟩
  | cons g rest ih =>
    intro i est best bestIdx
    unfold fmScanAux
    by_cases hc : best < est + g ∨ (best ≤ est + g ∧ cond i = true)
    · simp only [if_pos hc]
      have hle : best ≤ est + g := by
        rcases hc with h | ⟨h, _⟩
        · omega
        · exact h
      obtain ⟨ih1, ih2⟩ := ih (i + 1) (est + g) (est + g) (i + 1)
      refine ⟨le_trans hle ih1, ?_⟩
      rcases ih2 with ⟨he, hi⟩ | ⟨k, hk1, hk2, hk3, hk4⟩
      · refine Or.inr ⟨1, le_refl _, by simp, ?_, ?_⟩
        · rw [he]
          simp
        · rw [hi]
      · refine Or.inr ⟨k + 1, by omega, by simp; omega, ?_, ?_⟩
        · rw [hk3]
          show est + g + (rest.take k).sum = est + ((g :: rest).take (k + 1)).sum
          simp
          ring
        · rw [hk4]
          omega
    · simp only [if_neg hc]
      obtain ⟨ih1, ih2⟩ := ih (i + 1) (est + g) best bestIdx
      refine ⟨ih1, ?_⟩
      rcases ih2 with ⟨he, hi⟩ | ⟨k, hk1, hk2, hk3, hk4⟩
      · exact Or.inl ⟨he, hi⟩
      · refine Or.inr ⟨k + 1, by omega, by simp; omega, ?_, ?_⟩
        · rw [hk3]
          show est + g + (rest.take k).sum = est + ((g :: rest).take (k + 1)).sum
          simp
          ring
        · rw [hk4]
          omega

/-- The FM loop's best improvement is the gain-prefix sum at the best index, and it
is nonnegative. -/
theorem fmBestImprovementScan_spec (gains : List Int) (cond : Nat → Bool) :
    (fmBestImprovementScan gains cond).1
      = ((gains.take (fmBestImprovementScan gains cond).2).sum)
    ∧ 0 ≤ (fmBestImprovementScan gains cond).1
    ∧ (fmBestImprovementScan gains cond).2 ≤ gains.length := by
  obtain ⟨h1, h2⟩ := fmScanAux_spec cond gains 0 0 0 0
  unfold fmBestImprovementScan
  rcases h2 with ⟨he, hi⟩ | ⟨k, hk1, hk2, hk3, hk4⟩
  · rw [he, hi]
    simp
  · rw [hk3, hk4]
    refine ⟨by simp, ?_, by omega⟩
    rw [hk3] at h1
    omega

/-! ### Overloaded-block bookkeeping of strategy B2 -/

/-- The part weight of the source block after a move. -/
theorem pwAfterMove_from (w pw : Nat → Int) (m : Move) (hft : m.from_ ≠ m.to_) :
    pwAfterMove w pw m m.from_ = pw m.from_ - w m.node := by
  unfold pwAfterMove
  rw [Function.update_noteq hft]
  exact Function.update_same _ _ _

/-- The part weight of the target block after a move. -/
theorem pwAfterMove_to (w pw : Nat → Int) (m : Move) (hft : m.from_ ≠ m.to_) :
    pwAfterMove w pw m m.to_ = pw m.to_ + w m.node := by
  unfold pwAfterMove
  rw [Function.update_same]
  rw [Function.update_noteq (Ne.symm hft)]

/-- Other blocks keep their weight. -/
theorem pwAfterMove_other (w pw : Nat → Int) (m : Move) (i : Nat)
    (h1 : i ≠ m.from_) (h2 : i ≠ m.to_) : pwAfterMove w pw m i = pw i := by
  unfold pwAfterMove
  rw [Function.update_noteq h2, Function.update_noteq h1]

/-- The incremental update of `num_overloaded_blocks`
(deterministic_label_propagation.cpp:618-621) is exact: subtracting the
"source leaves the overloaded set" indicator and adding the "target enters the
overloaded set" indicator recomputes the overloaded-block count after the move
(blocks in range, a real move, nonnegative node weight); the subtrahend never
exceeds the current count. -/
theorem numOverloaded_after_move (k : Nat) (w maxw pw : Nat → Int) (m : Move)
    (hft : m.from_ ≠ m.to_) (hfk : m.from_ < k) (htk : m.to_ < k)
    (hw : 0 ≤ w m.node) :
    numOverloaded k (pwAfterMove w pw m) maxw
      = numOverloaded k pw maxw
        - (if maxw m.from_ < pw m.from_ ∧ pw m.from_ - w m.node ≤ maxw m.from_
           then 1 else 0)
        + (if pw m.to_ ≤ maxw m.to_ ∧ maxw m.to_ < pw m.to_ + w m.node then 1 else 0)
    ∧ (if maxw m.from_ < pw m.from_ ∧ pw m.from_ - w m.node ≤ maxw m.from_
       then 1 else 0) ≤ numOverloaded k pw maxw := by
  have hnd : (List.range k).Nodup := List.nodup_range k
  have ha : m.from_ ∈ List.range k := List.mem_range.mpr hfk
  have hb : m.to_ ∈ (List.range k).erase m.from_ :=
    (hnd.mem_erase_iff).mpr ⟨Ne.symm hft, List.mem_range.mpr htk⟩
  have hperm : (List.range k).Perm
      (m.from_ :: m.to_ :: (((List.range k).erase m.from_).erase m.to_)) :=
    (List.perm_cons_erase ha).trans ((List.perm_cons_erase hb).cons _)
  have hmem2 : ∀ i ∈ ((List.range k).erase m.from_).erase m.to_,
      i ≠ m.from_ ∧ i ≠ m.to_ := by
    intro i hi
    have h1 := ((hnd.erase m.from_).mem_erase_iff).mp hi
    have h2 := (hnd.mem_erase_iff).mp h1.2
    exact ⟨h2.1, h1.1⟩
  have hcc : (((List.range k).erase m.from_).erase m.to_).countP
        (fun i => decide (maxw i < pwAfterMove w pw m i))
      = (((List.range k).erase m.from_).erase m.to_).countP
        (fun i => decide (maxw i < pw i)) := by
    apply List.countP_congr
    intro i hi
    rw [pwAfterMove_other w pw m i (hmem2 i hi).1 (hmem2 i hi).2]
  unfold numOverloaded
  rw [← List.countP_eq_length_filter, ← List.countP_eq_length_filter]
  rw [hperm.countP_eq, hperm.countP_eq]
  rw [List.countP_cons, List.countP_cons, List.countP_cons, List.countP_cons]
  rw [hcc]
  simp only [decide_eq_true_eq, pwAfterMove_from w pw m hft, pwAfterMove_to w pw m hft]
  constructor
  · split_ifs <;> omega
  · split_ifs <;> omega

/-- Invariant of the B2 prefix-selection loop: starting from exact bookkeeping, the
returned `(best_gain, best_index)` is either the incoming pair or a prefix end `j`
whose overloaded count is within `novl0` and whose gain sum it records; it never
drops below the incoming best and dominates every eligible prefix. -/
theorem recalcScanAux_spec (w maxw : Nat → Int) (novl0 k : Nat) :
    ∀ (ms : List Move) (pw : Nat → Int) (gsum best : Int) (bestIdx pos : Nat),
      (∀ m ∈ ms, m.from_ ≠ m.to_ ∧ m.from_ < k ∧ m.to_ < k ∧ 0 ≤ w m.node) →
      best ≤ (recalcScanAux w maxw novl0 pw (numOverloaded k pw maxw) gsum best
          bestIdx pos ms).1
      ∧ ((recalcScanAux w maxw novl0 pw (numOverloaded k pw maxw) gsum best
            bestIdx pos ms).1 = best
          ∧ (recalcScanAux w maxw novl0 pw (numOverloaded k pw maxw) gsum best
            bestIdx pos ms).2 = bestIdx
        ∨ ∃ j, 1 ≤ j ∧ j ≤ ms.length
            ∧ numOverloaded k (pwAfterMoves w pw (ms.take j)) maxw ≤ novl0
            ∧ (recalcScanAux w maxw novl0 pw (numOverloaded k pw maxw) gsum best
                bestIdx pos ms).1 = gsum + ((ms.take j).map Move.gain).sum
            ∧ (recalcScanAux w maxw novl0 pw (numOverloaded k pw maxw) gsum best
                bestIdx pos ms).2 = pos + j)
      ∧ (∀ j, 1 ≤ j → j ≤ ms.length →
          numOverloaded k (pwAfterMoves w pw (ms.take j)) maxw ≤ novl0 →
          gsum + ((ms.take j).map Move.gain).sum
            ≤ (recalcScanAux w maxw novl0 pw (numOverloaded k pw maxw) gsum best
                bestIdx pos ms).1) := by
  intro ms
  induction ms with
  | nil =>
    intro pw gsum best bestIdx pos _
    refine ⟨le_refl _, Or.inl ⟨rfl, rfl⟩, ?_⟩
    intro j hj1 hj2 _
    simp at hj2
    omega
  | cons m rest ih =>
    intro pw gsum best bestIdx pos hm
    have hmhd := hm m (by simp)
    have hmtl : ∀ m' ∈ rest, m'.from_ ≠ m'.to_ ∧ m'.from_ < k ∧ m'.to_ < k
        ∧ 0 ≤ w m'.node := fun m' h => hm m' (by simp [h])
    have hstep := numOverloaded_after_move k w maxw pw m hmhd.1 hmhd.2.1 hmhd.2.2.1
      hmhd.2.2.2
    have htake1 : pwAfterMoves w pw ((m :: rest).take 1) = pwAfterMove w pw m := rfl
    have htakeS : ∀ j : Nat, pwAfterMoves w pw ((m :: rest).take (j + 1))
        = pwAfterMoves w (pwAfterMove w pw m) (rest.take j) := fun j => rfl
    unfold recalcScanAux
    rw [← hstep.1]
    by_cases hc : numOverloaded k (pwAfterMove w pw m) maxw ≤ novl0
      ∧ best ≤ gsum + m.gain
    · rw [if_pos hc]
      obtain ⟨ih1, ih2, ih3⟩ := ih (pwAfterMove w pw m) (gsum + m.gain) (gsum + m.gain)
        (pos + 1) (pos + 1) hmtl
      refine ⟨le_trans hc.2 ih1, ?_, ?_⟩
      · rcases ih2 with ⟨he, hi⟩ | ⟨j', hj1, hj2, hj3, hj4, hj5⟩
        · refine Or.inr ⟨1, le_refl _, by simp, ?_, ?_, ?_⟩
          · rw [htake1]
            exact hc.1
          · rw [he]
            simp
          · rw [hi]
        · refine Or.inr ⟨j' + 1, by omega, by simp; omega, ?_, ?_, ?_⟩
          · rw [htakeS j']
            exact hj3
          · rw [hj4]
            simp
            ring
          · rw [hj5]
            omega
      · intro j hj1 hj2 hj3
        cases j with
        | zero => omega
        | succ j'' =>
          cases Nat.eq_zero_or_pos j'' with
          | inl hz =>
            subst hz
            have : gsum + ((( m :: rest).take 1).map Move.gain).sum = gsum + m.gain := by
              simp
            rw [this]
            exact le_trans (le_refl _) ih1
          | inr hpos =>
            rw [htakeS j''] at hj3
            have := ih3 j'' hpos (by simp at hj2; omega) hj3
            calc gsum + (((m :: rest).take (j'' + 1)).map Move.gain).sum
                = (gsum + m.gain) + ((rest.take j'').map Move.gain).sum := by
                  simp
                  ring
              _ ≤ _ := this
    · rw [if_neg hc]
      obtain ⟨ih1, ih2, ih3⟩ := ih (pwAfterMove w pw m) (gsum + m.gain) best
        bestIdx (pos + 1) hmtl
      refine ⟨ih1, ?_, ?_⟩
      · rcases ih2 with ⟨he, hi⟩ | ⟨j', hj1, hj2, hj3, hj4, hj5⟩
        · exact Or.inl ⟨he, hi⟩
        · refine Or.inr ⟨j' + 1, by omega, by simp; omega, ?_, ?_, ?_⟩
          · rw [htakeS j']
            exact hj3
          · rw [hj4]
            simp
            ring
          · rw [hj5]
            omega
      · intro j hj1 hj2 hj3
        cases j with
        | zero => omega
        | succ j'' =>
          cases Nat.eq_zero_or_pos j'' with
          | inl hz =>
            subst hz
            rw [htake1] at hj3
            have hlt : ¬ best ≤ gsum + m.gain := fun h => hc ⟨hj3, h⟩
            have : gsum + (((m :: rest).take 1).map Move.gain).sum = gsum + m.gain := by
              simp
            rw [this]
            omega
          | inr hpos =>
            rw [htakeS j''] at hj3
            have := ih3 j'' hpos (by simp at hj2; omega) hj3
            calc gsum + (((m :: rest).take (j'' + 1)).map Move.gain).sum
                = (gsum + m.gain) + ((rest.take j'').map Move.gain).sum := by
                  simp
                  ring
              _ ≤ _ := this

/-! ### Apply-and-revert: atomicity and objective monotonicity -/

/-- Swapped moves of a valid list are well-formed against the post-apply partition. -/
theorem wfMoveSeq_swap_after (H : Hypergraph) (vl : List Move) (π : Partition)
    (hnodes : (vl.map Move.node).Nodup)
    (hok : ∀ m ∈ vl, π m.node = m.from_ ∧ m.from_ ≠ m.to_) :
    wfMoveSeq (applyAll π vl) (vl.map swapMove) = true := by
  apply wfMoveSeq_of_static
  · have : (vl.map swapMove).map Move.node = vl.map Move.node := by
      rw [List.map_map]
      exact List.map_congr_left (fun m _ => rfl)
    rw [this]
    exact hnodes
  · intro sm hsm
    rcases List.mem_map.mp hsm with ⟨m, hm, rfl⟩
    constructor
    · show applyAll π vl m.node = m.to_
      exact applyAll_apply_of_mem vl π m hnodes hm
    · exact Ne.symm (hok m hm).2

/-- The shared core of the LP revert-all paths: if the attributed gain of the applied
(valid) moves is negative, applying them again with `from`/`to` swapped restores the
entry partition exactly, and the summed attributed gain of both passes is zero. -/
theorem revertLowGain_restores (H : Hypergraph) (π : Partition)
    (ms : List (Move × Bool)) (hnd : ∀ e ∈ H, e.pins.Nodup)
    (hnodes : ((((ms.filter (fun p => p.2)).map (fun p => p.1))).map Move.node).Nodup)
    (hok : ∀ p ∈ ms, p.2 = true → π p.1.node = p.1.from_ ∧ p.1.from_ ≠ p.1.to_)
    (hneg : (applyMovesWithGain H π
      ((ms.filter (fun p => p.2)).map (fun p => p.1))).2 < 0) :
    (applyMovesAndRevertLowGain H π ms).1 = π
    ∧ (applyMovesAndRevertLowGain H π ms).2 = 0 := by
  have hvlok : ∀ m ∈ (ms.filter (fun p => p.2)).map (fun p => p.1),
      π m.node = m.from_ ∧ m.from_ ≠ m.to_ := by
    intro m hmem
    rcases List.mem_map.mp hmem with ⟨p, hp, rfl⟩
    exact hok p (List.mem_of_mem_filter hp) (List.of_mem_filter hp)
  have hwf : wfMoveSeq π ((ms.filter (fun p => p.2)).map (fun p => p.1)) = true :=
    wfMoveSeq_of_static _ π hnodes hvlok
  have hrestore : (applyMovesWithGain H
      (applyMovesWithGain H π ((ms.filter (fun p => p.2)).map (fun p => p.1))).1
      (((ms.filter (fun p => p.2)).map (fun p => p.1)).map swapMove)).1 = π := by
    rw [applyMovesWithGain_fst, applyMovesWithGain_fst]
    exact applyAll_swap_restore _ π hnodes (fun m hm => (hvlok m hm).1)
  have hg1 := applyMovesWithGain_snd H hnd
    ((ms.filter (fun p => p.2)).map (fun p => p.1)) π hwf
  have hwf2 : wfMoveSeq
      (applyMovesWithGain H π ((ms.filter (fun p => p.2)).map (fun p => p.1))).1
      ((((ms.filter (fun p => p.2)).map (fun p => p.1))).map swapMove) = true := by
    rw [applyMovesWithGain_fst]
    exact wfMoveSeq_swap_after H _ π hnodes hvlok
  have hg2 := applyMovesWithGain_snd H hnd
    ((((ms.filter (fun p => p.2)).map (fun p => p.1))).map swapMove)
    (applyMovesWithGain H π ((ms.filter (fun p => p.2)).map (fun p => p.1))).1 hwf2
  unfold applyMovesAndRevertLowGain
  simp only
  rw [if_pos hneg]
  refine ⟨hrestore, ?_⟩
  simp only
  rw [hg1, hg2, hrestore]
  ring

/-- C5: if the attributed gain realized by
`applyMovesSortedByGainAndRevertUnbalanced` after applying all non-invalidated moves
is negative, the function re-applies every one of those moves in the opposite
direction, so the partition on return equals the partition at entry and the returned
gain is zero.  Hypotheses: hyperedges have distinct pins, the valid moves carry
distinct nodes, and each valid move records its node's current block and a real
target (which the LP move buffer guarantees). -/
theorem C5_negative_gain_revert_is_atomic (H : Hypergraph) (π : Partition)
    (ms : List (Move × Bool)) (hnd : ∀ e ∈ H, e.pins.Nodup)
    (hnodes : ((((ms.filter (fun p => p.2)).map (fun p => p.1))).map Move.node).Nodup)
    (hok : ∀ p ∈ ms, p.2 = true → π p.1.node = p.1.from_ ∧ p.1.from_ ≠ p.1.to_)
    (hneg : (applyMovesWithGain H π
      ((ms.filter (fun p => p.2)).map (fun p => p.1))).2 < 0) :
    (applyMovesAndRevertLowGain H π ms).1 = π
    ∧ (applyMovesAndRevertLowGain H π ms).2 = 0 :=
  revertLowGain_restores H π ms hnd hnodes hok hneg

/-- Witness for `C5_negative_gain_revert_is_atomic`: one valid move of negative gain
(moving the only vertex of a weight-2 hyperedge pair out of its block) is applied and
then reverted; the state returns to the entry partition and the reported gain is 0. -/
theorem C5_negative_gain_revert_witness :
    (applyMovesAndRevertLowGain [⟨2, [0, 1]⟩] (fun _ => 0)
      [(⟨0, 0, 1, -2⟩, true)]).1 = (fun _ => 0)
    ∧ (applyMovesAndRevertLowGain [⟨2, [0, 1]⟩] (fun _ => 0)
      [(⟨0, 0, 1, -2⟩, true)]).2 = 0 := by
  exact C5_negative_gain_revert_is_atomic [⟨2, [0, 1]⟩] (fun _ => 0)
    [(⟨0, 0, 1, -2⟩, true)] (by decide) (by decide)
    (by intro p hp hv; simp at hp; rw [hp]; exact ⟨rfl, by decide⟩)
    (by decide)

/-- C4: in `applyMovesSortedByGainWithRecalculation`, the applied set is exactly the
prefix `[0, best_index)` of the sorted move sequence; the chosen index is an
eligible prefix end (its overloaded-block count does not exceed the count before the
pass), the returned `best_gain` is that prefix's recalculated-gain sum, it dominates
the gain sum of every eligible prefix, and it is nonnegative.  Hypotheses: every move
is a real move between blocks `< k` of a node of nonnegative weight. -/
theorem C4_recalculation_prefix_is_optimal (H : Hypergraph) (π : Partition)
    (w maxw : Nat → Int) (k : Nat) (pw : Nat → Int) (ms : List Move)
    (hm : ∀ m ∈ ms, m.from_ ≠ m.to_ ∧ m.from_ < k ∧ m.to_ < k ∧ 0 ≤ w m.node) :
    (recalcBestPrefEnds w maxw k pw ms).2 ≤ ms.length
    ∧ numOverloaded k
        (pwAfterMoves w pw (ms.take (recalcBestPrefEnds w maxw k pw ms).2)) maxw
      ≤ numOverloaded k pw maxw
    ∧ (recalcBestPrefEnds w maxw k pw ms).1
      = ((ms.take (recalcBestPrefEnds w maxw k pw ms).2).map Move.gain).sum
    ∧ (∀ j, j ≤ ms.length →
        numOverloaded k (pwAfterMoves w pw (ms.take j)) maxw ≤ numOverloaded k pw maxw →
        ((ms.take j).map Move.gain).sum ≤ (recalcBestPrefEnds w maxw k pw ms).1)
    ∧ 0 ≤ (recalcBestPrefEnds w maxw k pw ms).1
    ∧ recalcSelectAndApply H π w maxw k pw ms
      = (applyAll π (ms.take (recalcBestPrefEnds w maxw k pw ms).2),
         (recalcBestPrefEnds w maxw k pw ms).1) := by
  obtain ⟨h1, h2, h3⟩ := recalcScanAux_spec w maxw (numOverloaded k pw maxw) k ms pw
    0 0 0 0 hm
  have hbase : pwAfterMoves w pw (ms.take 0) = pw := rfl
  have hdom : ∀ j, j ≤ ms.length →
      numOverloaded k (pwAfterMoves w pw (ms.take j)) maxw ≤ numOverloaded k pw maxw →
      ((ms.take j).map Move.gain).sum ≤ (recalcBestPrefEnds w maxw k pw ms).1 := by
    intro j hj1 hj2
    cases Nat.eq_zero_or_pos j with
    | inl hz =>
      subst hz
      simpa using h1
    | inr hpos =>
      have := h3 j hpos hj1 hj2
      simpa using this
  rcases h2 with ⟨he, hi⟩ | ⟨j, hj1, hj2, hj3, hj4, hj5⟩
  · have hr1 : (recalcBestPrefEnds w maxw k pw ms).1 = 0 := he
    have hr2 : (recalcBestPrefEnds w maxw k pw ms).2 = 0 := hi
    refine ⟨by rw [hr2]; omega, ?_, ?_, hdom, by rw [hr1], rfl⟩
    · rw [hr2, hbase]
    · rw [hr1, hr2]
      simp
  · have hr2 : (recalcBestPrefEnds w maxw k pw ms).2 = j := by
      have h0 : (0 : Nat) + j = j := by omega
      rw [← h0]
      exact hj5
    have hr1 : (recalcBestPrefEnds w maxw k pw ms).1
        = ((ms.take j).map Move.gain).sum := by
      have h0 : (0 : Int) + ((ms.take j).map Move.gain).sum
          = ((ms.take j).map Move.gain).sum := by ring
      rw [← h0]
      exact hj4
    refine ⟨by rw [hr2]; omega, ?_, ?_, hdom, h1, rfl⟩
    · rw [hr2]
      exact hj3
    · rw [hr1, hr2]

/-- Witness for `C4_recalculation_prefix_is_optimal`: a single positive-gain move
inside the balance budget is selected (`best_index = 1`) and its gain returned. -/
theorem C4_recalculation_witness :
    0 ≤ (recalcBestPrefEnds (fun _ => 1) (fun _ => 10) 2
      (fun p => if p = 0 then 1 else 0) [⟨0, 0, 1, 3⟩]).1
    ∧ (recalcBestPrefEnds (fun _ => 1) (fun _ => 10) 2
      (fun p => if p = 0 then 1 else 0) [⟨0, 0, 1, 3⟩]).1
      = ((([⟨0, 0, 1, 3⟩] : List Move).take (recalcBestPrefEnds (fun _ => 1)
          (fun _ => 10) 2 (fun p => if p = 0 then 1 else 0) [⟨0, 0, 1, 3⟩]).2).map
          Move.gain).sum := by
  have h := C4_recalculation_prefix_is_optimal [] (fun _ => 0) (fun _ => 1)
    (fun _ => 10) 2 (fun p => if p = 0 then 1 else 0) [⟨0, 0, 1, 3⟩]
    (by intro m hm; simp at hm; rw [hm]; refine ⟨by decide, by decide, by decide, by decide⟩)
  exact ⟨h.2.2.2.2.1, h.2.2.1⟩

/-- `revertToBestLocalPrefix` really leaves exactly the best prefix applied. -/
theorem fmApplyAndRevertToBest_eq_take (ms : List Move) (π : Partition) (k : Nat)
    (hwf : wfMoveSeq π ms = true) :
    fmApplyAndRevertToBest π ms k = applyAll π (ms.take k) := by
  have hsplit : applyAll π ms = applyAll (applyAll π (ms.take k)) (ms.drop k) := by
    rw [← applyAll_append]
    rw [List.take_append_drop]
  unfold fmApplyAndRevertToBest
  rw [hsplit]
  exact applyAll_reverse_revert (ms.drop k) (applyAll π (ms.take k))
    (wfMoveSeq_drop k ms π hwf)

/-- C2: after a refiner apply phase returns, the km1 objective is at most the
objective at entry.  Three conjuncts cover the cited code:
(1) the apply-then-revert-if-negative pattern that ends both
`applyMovesByMaximalPrefixesInBlockPairs` (the selected per-pair prefixes being the
valid subset) and `applyMovesSortedByGainAndRevertUnbalanced`;
(2) a localized FM search on the global hypergraph followed by
`revertToBestLocalPrefix` at the loop's best improvement index, with the logged gains
equal to the attributed gains (exact in the sequential semantics);
(3) `applyMovesSortedByGainWithRecalculation`, whose selected prefix has
recalculated-gain sum `best_gain ≥ 0`, the recalculated gains again being the
attributed ones (asserted by the code itself in debug mode). -/
theorem C2_refiner_never_worsens_objective :
    (∀ (H : Hypergraph) (π : Partition) (ms : List (Move × Bool)),
      (∀ e ∈ H, e.pins.Nodup) →
      ((((ms.filter (fun p => p.2)).map (fun p => p.1))).map Move.node).Nodup →
      (∀ p ∈ ms, p.2 = true → π p.1.node = p.1.from_ ∧ p.1.from_ ≠ p.1.to_) →
      km1 H (applyMovesAndRevertLowGain H π ms).1 ≤ km1 H π)
    ∧ (∀ (H : Hypergraph) (π : Partition) (ms : List Move) (cond : Nat → Bool),
      (∀ e ∈ H, e.pins.Nodup) → wfMoveSeq π ms = true →
      gainsMatchAttributed H π ms = true →
      km1 H (fmApplyAndRevertToBest π ms
        (fmBestImprovementScan (ms.map Move.gain) cond).2) ≤ km1 H π)
    ∧ (∀ (H : Hypergraph) (π : Partition) (w maxw : Nat → Int) (k : Nat)
        (pw : Nat → Int) (ms : List Move),
      (∀ e ∈ H, e.pins.Nodup) → wfMoveSeq π ms = true →
      gainsMatchAttributed H π ms = true →
      (∀ m ∈ ms, m.from_ ≠ m.to_ ∧ m.from_ < k ∧ m.to_ < k ∧ 0 ≤ w m.node) →
      km1 H (recalcSelectAndApply H π w maxw k pw ms).1 ≤ km1 H π) := by
  have keyTake : ∀ (H : Hypergraph) (π : Partition) (ms : List Move) (j : Nat),
      (∀ e ∈ H, e.pins.Nodup) → wfMoveSeq π ms = true →
      gainsMatchAttributed H π ms = true →
      km1 H (applyAll π (ms.take j)) = km1 H π - ((ms.take j).map Move.gain).sum := by
    intro H π ms j hnd hwf hg
    have hwft := wfMoveSeq_take j ms π hwf
    have hsnd := applyMovesWithGain_snd H hnd (ms.take j) π hwft
    have hfst := applyMovesWithGain_fst H (ms.take j) π
    have hsum := gainSum_take_eq H ms π j hg
    rw [hsum, hsnd, hfst]
    ring
  refine ⟨?_, ?_, ?_⟩
  · intro H π ms hnd hnodes hok
    by_cases hneg : (applyMovesWithGain H π
        ((ms.filter (fun p => p.2)).map (fun p => p.1))).2 < 0
    · rw [(revertLowGain_restores H π ms hnd hnodes hok hneg).1]
    · have hvlok : ∀ m ∈ (ms.filter (fun p => p.2)).map (fun p => p.1),
          π m.node = m.from_ ∧ m.from_ ≠ m.to_ := by
        intro m hmem
        rcases List.mem_map.mp hmem with ⟨p, hp, rfl⟩
        exact hok p (List.mem_of_mem_filter hp) (List.of_mem_filter hp)
      have hwf : wfMoveSeq π ((ms.filter (fun p => p.2)).map (fun p => p.1)) = true :=
        wfMoveSeq_of_static _ π hnodes hvlok
      have hsnd := applyMovesWithGain_snd H hnd
        ((ms.filter (fun p => p.2)).map (fun p => p.1)) π hwf
      have hres : (applyMovesAndRevertLowGain H π ms).1
          = (applyMovesWithGain H π
              ((ms.filter (fun p => p.2)).map (fun p => p.1))).1 := by
        unfold applyMovesAndRevertLowGain
        simp only
        rw [if_neg hneg]
      rw [hres]
      omega
  · intro H π ms cond hnd hwf hg
    obtain ⟨hs1, hs2, hs3⟩ := fmBestImprovementScan_spec (ms.map Move.gain) cond
    rw [fmApplyAndRevertToBest_eq_take ms π _ hwf]
    rw [keyTake H π ms _ hnd hwf hg]
    have hmt : ((ms.map Move.gain).take
        (fmBestImprovementScan (ms.map Move.gain) cond).2)
        = (ms.take (fmBestImprovementScan (ms.map Move.gain) cond).2).map Move.gain :=
      List.map_take Move.gain ms _ |>.symm
    rw [hmt] at hs1
    omega
  · intro H π w maxw k pw ms hnd hwf hg hm
    obtain ⟨h1, h2, _⟩ := recalcScanAux_spec w maxw (numOverloaded k pw maxw) k ms pw
      0 0 0 0 hm
    have hshape : (recalcSelectAndApply H π w maxw k pw ms).1
        = applyAll π (ms.take (recalcBestPrefEnds w maxw k pw ms).2) := rfl
    rw [hshape, keyTake H π ms _ hnd hwf hg]
    rcases h2 with ⟨he, hi⟩ | ⟨j, hj1, hj2, hj3, hj4, hj5⟩
    · have hr2 : (recalcBestPrefEnds w maxw k pw ms).2 = 0 := hi
      rw [hr2]
      simp
    · have hr2 : (recalcBestPrefEnds w maxw k pw ms).2 = j := by
        have h5 : (recalcBestPrefEnds w maxw k pw ms).2 = 0 + j := hj5
        omega
      have hpos : (0 : Int) ≤ ((ms.take j).map Move.gain).sum := by
        have h4 : (recalcBestPrefEnds w maxw k pw ms).1
            = 0 + ((ms.take j).map Move.gain).sum := hj4
        have h1' : (0 : Int) ≤ (recalcBestPrefEnds w maxw k pw ms).1 := h1
        omega
      rw [hr2]
      omega

/-- Witness for `C2_refiner_never_worsens_objective`: all three conjuncts applied to
a two-pin hyperedge of weight 2 with one logged move of (exact) gain −2. -/
theorem C2_refiner_never_worsens_witness :
    km1 [⟨2, [0, 1]⟩] (applyMovesAndRevertLowGain [⟨2, [0, 1]⟩] (fun _ => 0)
      [(⟨0, 0, 1, -2⟩, true)]).1 ≤ km1 [⟨2, [0, 1]⟩] (fun _ => 0)
    ∧ km1 [⟨2, [0, 1]⟩] (fmApplyAndRevertToBest (fun _ => 0) [⟨0, 0, 1, -2⟩]
        (fmBestImprovementScan (([⟨0, 0, 1, -2⟩] : List Move).map Move.gain)
          (fun _ => false)).2) ≤ km1 [⟨2, [0, 1]⟩] (fun _ => 0)
    ∧ km1 [⟨2, [0, 1]⟩] (recalcSelectAndApply [⟨2, [0, 1]⟩] (fun _ => 0)
        (fun _ => 1) (fun _ => 10) 2 (fun _ => 0) [⟨0, 0, 1, -2⟩]).1
      ≤ km1 [⟨2, [0, 1]⟩] (fun _ => 0) := by
  refine ⟨?_, ?_, ?_⟩
  · exact C2_refiner_never_worsens_objective.1 [⟨2, [0, 1]⟩] (fun _ => 0)
      [(⟨0, 0, 1, -2⟩, true)] (by decide) (by decide)
      (by intro p hp hv; simp at hp; rw [hp]; exact ⟨rfl, by decide⟩)
  · exact C2_refiner_never_worsens_objective.2.1 [⟨2, [0, 1]⟩] (fun _ => 0)
      [⟨0, 0, 1, -2⟩] (fun _ => false) (by decide) (by decide) (by decide)
  · exact C2_refiner_never_worsens_objective.2.2 [⟨2, [0, 1]⟩] (fun _ => 0)
      (fun _ => 1) (fun _ => 10) 2 (fun _ => 0) [⟨0, 0, 1, -2⟩] (by decide)
      (by decide) (by decide)
      (by intro m hm; simp at hm; rw [hm]; exact ⟨by decide, by decide, by decide, by decide⟩)

/-- Witness for `C1_lp_subround_thread_count_independent`: two opposite delivery
orders of the same two-move buffer yield the same sub-round outcome. -/
theorem C1_lp_subround_witness :
    lpSubRoundModel [] [0, 1] (fun _ => 1) (fun _ => 10) 2 false (fun _ => [])
      (fun _ => 0) [⟨0, 0, 1, 1⟩, ⟨1, 0, 1, 1⟩] =
    lpSubRoundModel [] [0, 1] (fun _ => 1) (fun _ => 10) 2 false (fun _ => [])
      (fun _ => 0) [⟨1, 0, 1, 1⟩, ⟨0, 0, 1, 1⟩] := by
  exact (C1_lp_subround_thread_count_independent [] [0, 1] (fun _ => 1)
    (fun _ => 10) 2 false (fun _ => []) (fun _ => 0)
    [⟨0, 0, 1, 1⟩, ⟨1, 0, 1, 1⟩] [⟨1, 0, 1, 1⟩, ⟨0, 0, 1, 1⟩]
    (List.Perm.swap _ _ _) (by decide)).1

/-- C7: the claim says `SPMCQueue::empty()` returns true iff the queue contains no
elements, i.e. iff `unsafe_size() == 0`.  The source (work_stack.h:116-118) returns
`unsafe_size() > 0` — the exact inversion.  At the failing input (the empty queue,
`elements = [], front = 0`) the code returns `false` although `unsafe_size() = 0`,
and on a one-element queue it returns `true` although `unsafe_size() = 1`. -/
theorem C7_empty_is_inverted :
    SPMCQueue.empty (⟨[], 0⟩ : SPMCQueue Nat) = false
    ∧ SPMCQueue.qsize (⟨[], 0⟩ : SPMCQueue Nat) = 0
    ∧ SPMCQueue.empty (⟨[42], 0⟩ : SPMCQueue Nat) = true
    ∧ SPMCQueue.qsize (⟨[42], 0⟩ : SPMCQueue Nat) = 1 := by
  refine ⟨?_, ?_, ?_, ?_⟩ <;> decide

/-- C8: the claim says the CAS loop of `SPMCQueue::push_back` spins *until* the CAS
from the current front value to `IN_REALLOC` succeeds, so that `front` holds
`IN_REALLOC` at the moment the storage is grown.  The source (work_stack.h:69) loops
*while* the CAS succeeds, i.e. it exits on the first CAS failure.  At the failing
input — `front = front_spin_variable = 0` and the first `compare_exchange_weak`
attempt fails (spuriously, or because a concurrent pop moved `front`) — the loop
exits immediately and the storage is grown with `front = 0 < IN_REALLOC`, so
concurrent pops are not blocked.  (Without such a failure the first CAS succeeds and
the second fails, so the sequential execution does reach `front = IN_REALLOC`, as the
last conjunct records.) -/
theorem C8_push_back_cas_loop_inverted :
    frontWhenGrowing 0 0 true = 0
    ∧ 0 < inRealloc
    ∧ frontWhenGrowing 0 0 false = inRealloc := by
  refine ⟨?_, ?_, ?_⟩ <;> decide

/-- If every queue's `try_pop_front` fails, the whole stealing loop fails. -/
theorem stealFirst_eq_none {T : Type} (qs : List (SPMCQueue T))
    (hfail : ∀ q ∈ qs, (q.tryPopFront).1 = none) : stealFirst qs = none := by
  induction qs with
  | nil => rfl
  | cons q rest ih =>
    have hq := hfail q (by simp)
    have hrest : ∀ p ∈ rest, (p.tryPopFront).1 = none := by
      intro p hp
      exact hfail p (by simp [hp])
    simp only [stealFirst, hq]
    exact ih hrest

/-- C9 (amended): in `WorkContainer::try_pop`, when the local pop fails and stealing
from every queue fails, the spin-wait-and-retry pass runs iff some queue is
mid-reallocation *and* the cumulative `steal_failures` counter (reset only by
`clear()`) is still below 1024; otherwise — in particular after 1024 accumulated
steal failures — the call returns false.  (The original claim has the threshold
backwards: it states the spin-wait happens *after* 1024 consecutive failures.) -/
theorem C9_steal_failure_threshold (qs : List (SPMCQueue Nat)) (localIdx sf : Nat)
    (resolve : Nat → SPMCQueue Nat)
    (hfail : ∀ q ∈ qs, (q.tryPopFront).1 = none)
    (hblock : qs.any SPMCQueue.currentlyBlocked = true) :
    wcTryPop qs localIdx sf resolve =
      if sf < 1024 then (spinPhase qs resolve 0, sf + 1) else (none, sf + 1) := by
  have hlocal : ((qs.getD localIdx ⟨[], 0⟩).tryPopFront).1 = none := by
    rcases Nat.lt_or_ge localIdx qs.length with h | h
    · rw [List.getD_eq_getElem _ _ h]
      exact hfail _ (List.getElem_mem h)
    · rw [List.getD_eq_default _ _ h]
      decide
  have hsteal : stealFirst qs = none := stealFirst_eq_none qs hfail
  rw [wcTryPop, hlocal, hsteal]
  simp [hblock]

/-- Witness for `C9_steal_failure_threshold`: a container with one mid-reallocation
queue and no prior steal failures spin-waits and pops the element that becomes
available after the reallocation. -/
theorem C9_steal_failure_threshold_witness :
    wcTryPop [(⟨[], inRealloc⟩ : SPMCQueue Nat)] 0 0 (fun _ => ⟨[5], 0⟩)
      = (some 5, 1) := by
  rw [C9_steal_failure_threshold [⟨[], inRealloc⟩] 0 0 (fun _ => ⟨[5], 0⟩)
    (by decide) (by decide)]
  decide

/-- C9, counterexample to the claim as stated: at a state with 1024 accumulated steal
failures, an empty local queue and one mid-reallocation queue whose reallocation will
expose the element 7, the claim predicts that `try_pop` spin-waits and retries (which
would yield 7, as the second conjunct shows), but the code returns false without
popping anything. -/
theorem C9_claim_counterexample :
    wcTryPop [(⟨[], 0⟩ : SPMCQueue Nat), ⟨[], inRealloc⟩] 0 1024 (fun _ => ⟨[7], 0⟩)
      = (none, 1025)
    ∧ spinPhase [(⟨[], 0⟩ : SPMCQueue Nat), ⟨[], inRealloc⟩] (fun _ => ⟨[7], 0⟩) 0
      = some 7 := by
  refine ⟨?_, ?_⟩ <;> decide

/-- C10: after every call to `WorkContainer::clear()`, `was_pushed_and_removed(v)` is
false for every `v` — on the normal path because `current` advanced by 2 past every
stored timestamp (which is at most the old `current + 1`), and on the overflow path
(`current ≥ 2^32 - 3`) because all timestamps are zeroed and the epoch counter
restarts at `0 + 2 = 2`, so the predicate compares against 3.  The hypotheses are the
representation invariants maintained by `push_back` (stamps `current`), `try_pop`
(stamps `current + 1`) and `clear` itself. -/
theorem C10_clear_resets_was_pushed_and_removed (w : WorkTimestamps) (el : Nat)
    (hcur : w.current < U32)
    (hts : ∀ ts ∈ w.timestamps, ts ≤ w.current + 1) :
    wasPushedAndRemoved (clearTimestamps w) el = false
    ∧ ((U32 - 1) - 2 ≤ w.current → (clearTimestamps w).current = 2) := by
  have hU : U32 = 4294967296 := rfl
  by_cases hover : (U32 - 1) - 2 ≤ w.current
  · have hclear : clearTimestamps w =
        { timestamps := w.timestamps.map (fun _ => 0), current := 2 } := by
      rw [clearTimestamps, if_pos hover]
      congr 1
    constructor
    · rw [hclear, wasPushedAndRemoved]
      have hget : (w.timestamps.map (fun _ => (0 : Nat))).getD el 0 = 0 := by
        rcases Nat.lt_or_ge el w.timestamps.length with h | h
        · rw [List.getD_eq_getElem _ _ (by simpa using h)]
          simp
        · rw [List.getD_eq_default _ _ (by simpa using h)]
      rw [hget]
      simp [U32]
    · intro _
      rw [hclear]
  · have hcur4 : w.current + 2 < U32 := by omega
    have hclear : clearTimestamps w =
        { timestamps := w.timestamps, current := w.current + 2 } := by
      rw [clearTimestamps, if_neg hover]
      congr 1
      exact Nat.mod_eq_of_lt hcur4
    refine ⟨?_, fun h => absurd h hover⟩
    rw [hclear, wasPushedAndRemoved]
    have hmod : (w.current + 2 + 1) % U32 = w.current + 3 := by
      apply Nat.mod_eq_of_lt
      omega
    rw [hmod]
    rcases Nat.lt_or_ge el w.timestamps.length with h | h
    · rw [List.getD_eq_getElem _ _ h]
      have := hts (w.timestamps[el]) (List.getElem_mem h)
      simp only [decide_eq_false_iff_not]
      omega
    · rw [List.getD_eq_default _ _ h]
      simp only [decide_eq_false_iff_not]
      omega

/-- Witness for `C10_clear_resets_was_pushed_and_removed` at a concrete container
state satisfying the timestamp invariant. -/
theorem C10_clear_witness :
    wasPushedAndRemoved (clearTimestamps ⟨[3, 0, 2], 2⟩) 0 = false := by
  exact (C10_clear_resets_was_pushed_and_removed ⟨[3, 0, 2], 2⟩ 0 (by decide)
    (by decide)).1

/-- C6: both FM move paths pass `max(max_part_weights[m.to], partWeight(m.from))` as
the balance budget (`fmBalanceBudget` is literally that expression, used at
localized_kway_fm_core.h:153-154 and 233-234); consequently, a move accepted by the
balance check whose target block ends up above its maximum weight is possible only
when the source block's current weight already exceeds the target's maximum. -/
theorem C6_fm_balance_budget (maxw : Nat → Int) (fromWeight toWeight nodeWeight : Int)
    (to_ : Nat)
    (haccept : changeNodePartAccepts toWeight nodeWeight
      (fmBalanceBudget maxw fromWeight to_) = true)
    (hover : maxw to_ < toWeight + nodeWeight) :
    maxw to_ < fromWeight := by
  have h := of_decide_eq_true haccept
  rw [fmBalanceBudget] at h
  rcases max_cases (maxw to_) fromWeight with ⟨heq, _⟩ | ⟨_, hlt⟩
  · rw [heq] at h
    omega
  · exact hlt

/-- Witness for `C6_fm_balance_budget`: with `max_part_weights[to] = 5`, source block
weight 10, target block weight 3 and node weight 4 the move is accepted (7 ≤ 10), the
target ends over its maximum (7 > 5), and indeed the source was already above the
target's maximum (10 > 5). -/
theorem C6_fm_balance_budget_witness : (5 : Int) < 10 := by
  exact C6_fm_balance_budget (fun _ => 5) 10 3 4 0 (by decide) (by decide)

/-! ### The prefix search: characterization and equivalence -/

/-- Indices strictly above the invalid marker read the array. -/
theorem cnwAt_of_gt (c : Int → Int) (inv i : Int) (h : inv < i) : cnwAt c inv i = c i := by
  unfold cnwAt
  rw [if_neg (by omega)]

/-- Greatest feasible pairs are unique. -/
theorem greatestFeasPair_unique (c : Int → Int)
    (inv1 inv2 lb ub b1 e1 b2 e2 i j i' j' : Int)
    (h : greatestFeasPair c inv1 inv2 lb ub b1 e1 b2 e2 i j)
    (h' : greatestFeasPair c inv1 inv2 lb ub b1 e1 b2 e2 i' j') : i = i' ∧ j = j' := by
  obtain ⟨hr, hf, hd⟩ := h
  obtain ⟨hr', hf', hd'⟩ := h'
  obtain ⟨h1, h2⟩ := hd i' j' hr' hf'
  obtain ⟨h3, h4⟩ := hd' i j hr hf
  omega

/-- Characterization of `findBestPrefixesSequentially` on sorted data with
`lb ≤ 0 ≤ ub`: it returns the successor pair of the componentwise-greatest feasible
pair of its rectangle, or `(invalid, invalid)` exactly when the rectangle has no
feasible pair. -/
theorem findBestPrefixesSequentially_char (c : Int → Int) (inv1 inv2 lb ub G1 G2 : Int)
    (hm1 : cnwMonoOn c inv1 G1) (hm2 : cnwMonoOn c inv2 G2)
    (hlb : lb ≤ 0) (hub : 0 ≤ ub) :
    ∀ (b1 e1 b2 e2 : Int), inv1 < b1 → b1 ≤ e1 → e1 ≤ G1 → inv2 < b2 → b2 ≤ e2 →
      e2 ≤ G2 →
      (∃ i j, greatestFeasPair c inv1 inv2 lb ub b1 e1 b2 e2 i j
          ∧ findBestPrefixesSequentially c inv1 inv2 lb ub b1 e1 b2 e2 = (i + 1, j + 1))
      ∨ ((∀ x y, inRect b1 e1 b2 e2 x y → ¬feasibleAt c inv1 inv2 lb ub x y)
          ∧ findBestPrefixesSequentially c inv1 inv2 lb ub b1 e1 b2 e2
            = (invalidPos, invalidPos)) := by
  intro b1
  intro e1 b2 e2
  induction e1, b2, e2 using findBestPrefixesSequentially.induct c inv1 inv2 lb ub b1 with
  | case1 e1 b2 e2 hfeas =>
    intro hb1 hbe1 he1 hb2 hbe2 he2
    left
    refine ⟨e1 - 1, e2 - 1, ⟨⟨by omega, by omega, by omega, by omega⟩, hfeas, ?_⟩, ?_⟩
    · intro x y hxy _
      exact ⟨hxy.2.1, hxy.2.2.2⟩
    · rw [findBestPrefixesSequentially]
      rw [if_pos hfeas]
      simp only [Prod.mk.injEq]
      omega
  | case2 e1 b2 e2 hnf hb h2 =>
    intro hb1 hbe1 he1 hb2 hbe2 he2
    have hblb : balanceAt c inv1 inv2 (e1 - 1) (e2 - 1) < lb := by
      by_contra hcon
      push_neg at hcon
      exact hnf ⟨hcon, by omega⟩
    right
    constructor
    · intro x y hxy hfxy
      have hy : y = e2 - 1 := by
        obtain ⟨_, _, hy1, hy2⟩ := hxy
        omega
      have hmono : cnwAt c inv1 x ≤ cnwAt c inv1 (e1 - 1) :=
        hm1 x (e1 - 1) (by obtain ⟨hx1, _, _, _⟩ := hxy; omega)
          (by obtain ⟨_, hx2, _, _⟩ := hxy; omega) (by omega)
      have hbal : balanceAt c inv1 inv2 x y < lb := by
        unfold balanceAt at hblb ⊢
        rw [hy]
        omega
      exact absurd hfxy.1 (by omega)
    · rw [findBestPrefixesSequentially]
      rw [if_neg hnf, if_pos hb, dif_pos h2]
  | case3 e1 b2 e2 hnf hb hne ih =>
    intro hb1 hbe1 he1 hb2 hbe2 he2
    have hblb : balanceAt c inv1 inv2 (e1 - 1) (e2 - 1) < lb := by
      by_contra hcon
      push_neg at hcon
      exact hnf ⟨hcon, by omega⟩
    have hcol : ∀ x, b1 - 1 ≤ x → x ≤ e1 - 1 →
        ¬ feasibleAt c inv1 inv2 lb ub x (e2 - 1) := by
      intro x hx1 hx2 hfe
      have hmono : cnwAt c inv1 x ≤ cnwAt c inv1 (e1 - 1) :=
        hm1 x (e1 - 1) (by omega) hx2 (by omega)
      have hbal : balanceAt c inv1 inv2 x (e2 - 1) < lb := by
        unfold balanceAt at hblb ⊢
        omega
      exact absurd hfe.1 (by omega)
    rcases ih hb1 hbe1 he1 hb2 (by omega) (by omega) with
      ⟨i, j, ⟨hr, hf, hd⟩, heq⟩ | ⟨hnone, heq⟩
    · left
      refine ⟨i, j, ⟨⟨hr.1, hr.2.1, hr.2.2.1, by
          obtain ⟨_, _, _, hj⟩ := hr; omega⟩, hf, ?_⟩, ?_⟩
      · intro x y hxy hfxy
        by_cases hy : y ≤ e2 - 2
        · exact hd x y ⟨hxy.1, hxy.2.1, hxy.2.2.1, by omega⟩ hfxy
        · have hy' : y = e2 - 1 := by
            obtain ⟨_, _, _, hy2⟩ := hxy
            omega
          exact absurd hfxy (hy' ▸ hcol x hxy.1 hxy.2.1)
      · rw [findBestPrefixesSequentially]
        rw [if_neg hnf, if_pos hb, dif_neg hne]
        exact heq
    · right
      constructor
      · intro x y hxy hfxy
        by_cases hy : y ≤ e2 - 2
        · exact hnone x y ⟨hxy.1, hxy.2.1, hxy.2.2.1, by omega⟩ hfxy
        · have hy' : y = e2 - 1 := by
            obtain ⟨_, _, _, hy2⟩ := hxy
            omega
          exact hcol x hxy.1 hxy.2.1 (hy' ▸ hfxy)
      · rw [findBestPrefixesSequentially]
        rw [if_neg hnf, if_pos hb, dif_neg hne]
        exact heq
  | case4 e1 b2 e2 hnf hb h1 =>
    intro hb1 hbe1 he1 hb2 hbe2 he2
    have hbub : ub < balanceAt c inv1 inv2 (e1 - 1) (e2 - 1) := by
      by_contra hcon
      push_neg at hcon
      exact hnf ⟨by omega, hcon⟩
    right
    constructor
    · intro x y hxy hfxy
      have hx : x = e1 - 1 := by
        obtain ⟨hx1, hx2, _, _⟩ := hxy
        omega
      have hmono : cnwAt c inv2 y ≤ cnwAt c inv2 (e2 - 1) :=
        hm2 y (e2 - 1) (by obtain ⟨_, _, hy1, _⟩ := hxy; omega)
          (by obtain ⟨_, _, _, hy2⟩ := hxy; omega) (by omega)
      have hbal : ub < balanceAt c inv1 inv2 x y := by
        unfold balanceAt at hbub ⊢
        rw [hx]
        omega
      exact absurd hfxy.2 (by omega)
    · rw [findBestPrefixesSequentially]
      rw [if_neg hnf, if_neg hb, dif_pos h1]
  | case5 e1 b2 e2 hnf hb hne ih =>
    intro hb1 hbe1 he1 hb2 hbe2 he2
    have hbub : ub < balanceAt c inv1 inv2 (e1 - 1) (e2 - 1) := by
      by_contra hcon
      push_neg at hcon
      exact hnf ⟨by omega, hcon⟩
    have hrow : ∀ y, b2 - 1 ≤ y → y ≤ e2 - 1 →
        ¬ feasibleAt c inv1 inv2 lb ub (e1 - 1) y := by
      intro y hy1 hy2 hfe
      have hmono : cnwAt c inv2 y ≤ cnwAt c inv2 (e2 - 1) :=
        hm2 y (e2 - 1) (by omega) hy2 (by omega)
      have hbal : ub < balanceAt c inv1 inv2 (e1 - 1) y := by
        unfold balanceAt at hbub ⊢
        omega
      exact absurd hfe.2 (by omega)
    rcases ih hb1 (by omega) (by omega) hb2 hbe2 he2 with
      ⟨i, j, ⟨hr, hf, hd⟩, heq⟩ | ⟨hnone, heq⟩
    · left
      refine ⟨i, j, ⟨⟨hr.1, by
          obtain ⟨_, hi2, _, _⟩ := hr; omega, hr.2.2.1, hr.2.2.2⟩, hf, ?_⟩, ?_⟩
      · intro x y hxy hfxy
        by_cases hx : x ≤ e1 - 2
        · exact hd x y ⟨hxy.1, by omega, hxy.2.2.1, hxy.2.2.2⟩ hfxy
        · have hx' : x = e1 - 1 := by
            obtain ⟨_, hx2, _, _⟩ := hxy
            omega
          exact absurd hfxy (hx' ▸ hrow y hxy.2.2.1 hxy.2.2.2)
      · rw [findBestPrefixesSequentially]
        rw [if_neg hnf, if_neg hb, dif_neg hne]
        exact heq
    · right
      constructor
      · intro x y hxy hfxy
        by_cases hx : x ≤ e1 - 2
        · exact hnone x y ⟨hxy.1, by omega, hxy.2.2.1, hxy.2.2.2⟩ hfxy
        · have hx' : x = e1 - 1 := by
            obtain ⟨_, hx2, _, _⟩ := hxy
            omega
          exact hrow y hxy.2.2.1 hxy.2.2.2 (hx' ▸ hfxy)
      · rw [findBestPrefixesSequentially]
        rw [if_neg hnf, if_neg hb, dif_neg hne]
        exact heq

/-- `findBestPrefixesSequentially_char`, packaged with `prefixCharOf`. -/
theorem findBestPrefixesSequentially_charOf (c : Int → Int)
    (inv1 inv2 lb ub G1 G2 : Int)
    (hm1 : cnwMonoOn c inv1 G1) (hm2 : cnwMonoOn c inv2 G2)
    (hlb : lb ≤ 0) (hub : 0 ≤ ub) (b1 e1 b2 e2 : Int)
    (hb1 : inv1 < b1) (hbe1 : b1 ≤ e1) (he1 : e1 ≤ G1)
    (hb2 : inv2 < b2) (hbe2 : b2 ≤ e2) (he2 : e2 ≤ G2) :
    prefixCharOf c inv1 inv2 lb ub b1 e1 b2 e2
      (findBestPrefixesSequentially c inv1 inv2 lb ub b1 e1 b2 e2) :=
  findBestPrefixesSequentially_char c inv1 inv2 lb ub G1 G2 hm1 hm2 hlb hub
    b1 e1 b2 e2 hb1 hbe1 he1 hb2 hbe2 he2

/-- Unfolding: below the sequential cutoff the recursion is the sequential search. -/
theorem findBestPrefixesRecursive_eq_seq (c : Int → Int) (inv1 inv2 lb ub b1 e1 b2 e2 : Int)
    (h : e1 - b1 < 2000 ∧ e2 - b2 < 2000) :
    findBestPrefixesRecursive c inv1 inv2 lb ub b1 e1 b2 e2 =
      findBestPrefixesSequentially c inv1 inv2 lb ub b1 e1 b2 e2 := by
  rw [findBestPrefixesRecursive]
  rw [dif_pos h]

/-- Unfolding: long first range, midpoint feasible — recurse on the upper-right part. -/
theorem findBestPrefixesRecursive_eq_A1 (c : Int → Int)
    (inv1 inv2 lb ub b1 e1 b2 e2 : Int)
    (hseq : ¬(e1 - b1 < 2000 ∧ e2 - b2 < 2000)) (hgt : e2 - b2 < e1 - b1)
    (hA : lowBound c b2 e2 (c (b1 + (e1 - b1) / 2)) ≠ e2 ∧ b1 + (e1 - b1) / 2 ≠ e1 ∧
        feasibleAt c inv1 inv2 lb ub (b1 + (e1 - b1) / 2)
          (lowBound c b2 e2 (c (b1 + (e1 - b1) / 2)))) :
    findBestPrefixesRecursive c inv1 inv2 lb ub b1 e1 b2 e2 =
      findBestPrefixesRecursive c inv1 inv2 lb ub (b1 + (e1 - b1) / 2 + 1) e1
        (lowBound c b2 e2 (c (b1 + (e1 - b1) / 2)) + 1) e2 := by
  rw [findBestPrefixesRecursive]
  rw [dif_neg hseq, dif_pos hgt, dif_pos hA]

/-- Unfolding: long first range, midpoint impossible to compensate — recurse left. -/
theorem findBestPrefixesRecursive_eq_B1 (c : Int → Int)
    (inv1 inv2 lb ub b1 e1 b2 e2 : Int)
    (hseq : ¬(e1 - b1 < 2000 ∧ e2 - b2 < 2000)) (hgt : e2 - b2 < e1 - b1)
    (hA : ¬(lowBound c b2 e2 (c (b1 + (e1 - b1) / 2)) ≠ e2 ∧ b1 + (e1 - b1) / 2 ≠ e1 ∧
        feasibleAt c inv1 inv2 lb ub (b1 + (e1 - b1) / 2)
          (lowBound c b2 e2 (c (b1 + (e1 - b1) / 2)))))
    (hB : lowBound c b2 e2 (c (b1 + (e1 - b1) / 2)) = e2 ∧
        ub < balanceAt c inv1 inv2 (b1 + (e1 - b1) / 2) (e2 - 1)) :
    findBestPrefixesRecursive c inv1 inv2 lb ub b1 e1 b2 e2 =
      findBestPrefixesRecursive c inv1 inv2 lb ub b1 (b1 + (e1 - b1) / 2) b2
        (lowBound c b2 e2 (c (b1 + (e1 - b1) / 2))) := by
  rw [findBestPrefixesRecursive]
  rw [dif_neg hseq, dif_pos hgt, dif_neg hA, dif_pos hB]

/-- Unfolding: long first range, split case — combine left and right results. -/
theorem findBestPrefixesRecursive_eq_D1 (c : Int → Int)
    (inv1 inv2 lb ub b1 e1 b2 e2 : Int)
    (hseq : ¬(e1 - b1 < 2000 ∧ e2 - b2 < 2000)) (hgt : e2 - b2 < e1 - b1)
    (hA : ¬(lowBound c b2 e2 (c (b1 + (e1 - b1) / 2)) ≠ e2 ∧ b1 + (e1 - b1) / 2 ≠ e1 ∧
        feasibleAt c inv1 inv2 lb ub (b1 + (e1 - b1) / 2)
          (lowBound c b2 e2 (c (b1 + (e1 - b1) / 2)))))
    (hB : ¬(lowBound c b2 e2 (c (b1 + (e1 - b1) / 2)) = e2 ∧
        ub < balanceAt c inv1 inv2 (b1 + (e1 - b1) / 2) (e2 - 1))) :
    findBestPrefixesRecursive c inv1 inv2 lb ub b1 e1 b2 e2 =
      (if (findBestPrefixesRecursive c inv1 inv2 lb ub (b1 + (e1 - b1) / 2) e1
            (lowBound c b2 e2 (c (b1 + (e1 - b1) / 2))) e2).1 ≠ invalidPos
       then findBestPrefixesRecursive c inv1 inv2 lb ub (b1 + (e1 - b1) / 2) e1
            (lowBound c b2 e2 (c (b1 + (e1 - b1) / 2))) e2
       else findBestPrefixesRecursive c inv1 inv2 lb ub b1 (b1 + (e1 - b1) / 2) b2
            (lowBound c b2 e2 (c (b1 + (e1 - b1) / 2)))) := by
  rw [findBestPrefixesRecursive]
  rw [dif_neg hseq, dif_pos hgt, dif_neg hA, dif_neg hB]

/-- Unfolding: long second range, midpoint feasible — recurse on the upper-right
part. -/
theorem findBestPrefixesRecursive_eq_A2 (c : Int → Int)
    (inv1 inv2 lb ub b1 e1 b2 e2 : Int)
    (hseq : ¬(e1 - b1 < 2000 ∧ e2 - b2 < 2000)) (hgt : ¬(e2 - b2 < e1 - b1))
    (hA : lowBound c b1 e1 (c (b2 + (e2 - b2) / 2)) ≠ e1 ∧ b2 + (e2 - b2) / 2 ≠ e2 ∧
        feasibleAt c inv1 inv2 lb ub (lowBound c b1 e1 (c (b2 + (e2 - b2) / 2)))
          (b2 + (e2 - b2) / 2)) :
    findBestPrefixesRecursive c inv1 inv2 lb ub b1 e1 b2 e2 =
      findBestPrefixesRecursive c inv1 inv2 lb ub
        (lowBound c b1 e1 (c (b2 + (e2 - b2) / 2)) + 1) e1
        (b2 + (e2 - b2) / 2 + 1) e2 := by
  rw [findBestPrefixesRecursive]
  rw [dif_neg hseq, dif_neg hgt, dif_pos hA]

/-- Unfolding: long second range, midpoint impossible to compensate — recurse left. -/
theorem findBestPrefixesRecursive_eq_B2 (c : Int → Int)
    (inv1 inv2 lb ub b1 e1 b2 e2 : Int)
    (hseq : ¬(e1 - b1 < 2000 ∧ e2 - b2 < 2000)) (hgt : ¬(e2 - b2 < e1 - b1))
    (hA : ¬(lowBound c b1 e1 (c (b2 + (e2 - b2) / 2)) ≠ e1 ∧ b2 + (e2 - b2) / 2 ≠ e2 ∧
        feasibleAt c inv1 inv2 lb ub (lowBound c b1 e1 (c (b2 + (e2 - b2) / 2)))
          (b2 + (e2 - b2) / 2)))
    (hB : lowBound c b1 e1 (c (b2 + (e2 - b2) / 2)) = e1 ∧
        balanceAt c inv1 inv2 (e1 - 1) (b2 + (e2 - b2) / 2) < lb) :
    findBestPrefixesRecursive c inv1 inv2 lb ub b1 e1 b2 e2 =
      findBestPrefixesRecursive c inv1 inv2 lb ub b1
        (lowBound c b1 e1 (c (b2 + (e2 - b2) / 2))) b2 (b2 + (e2 - b2) / 2) := by
  rw [findBestPrefixesRecursive]
  rw [dif_neg hseq, dif_neg hgt, dif_neg hA, dif_pos hB]

/-- Unfolding: long second range, split case — combine left and right results. -/
theorem findBestPrefixesRecursive_eq_D2 (c : Int → Int)
    (inv1 inv2 lb ub b1 e1 b2 e2 : Int)
    (hseq : ¬(e1 - b1 < 2000 ∧ e2 - b2 < 2000)) (hgt : ¬(e2 - b2 < e1 - b1))
    (hA : ¬(lowBound c b1 e1 (c (b2 + (e2 - b2) / 2)) ≠ e1 ∧ b2 + (e2 - b2) / 2 ≠ e2 ∧
        feasibleAt c inv1 inv2 lb ub (lowBound c b1 e1 (c (b2 + (e2 - b2) / 2)))
          (b2 + (e2 - b2) / 2)))
    (hB : ¬(lowBound c b1 e1 (c (b2 + (e2 - b2) / 2)) = e1 ∧
        balanceAt c inv1 inv2 (e1 - 1) (b2 + (e2 - b2) / 2) < lb)) :
    findBestPrefixesRecursive c inv1 inv2 lb ub b1 e1 b2 e2 =
      (if (findBestPrefixesRecursive c inv1 inv2 lb ub
            (lowBound c b1 e1 (c (b2 + (e2 - b2) / 2))) e1
            (b2 + (e2 - b2) / 2) e2).1 ≠ invalidPos
       then findBestPrefixesRecursive c inv1 inv2 lb ub
            (lowBound c b1 e1 (c (b2 + (e2 - b2) / 2))) e1
            (b2 + (e2 - b2) / 2) e2
       else findBestPrefixesRecursive c inv1 inv2 lb ub b1
            (lowBound c b1 e1 (c (b2 + (e2 - b2) / 2))) b2 (b2 + (e2 - b2) / 2)) := by
  rw [findBestPrefixesRecursive]
  rw [dif_neg hseq, dif_neg hgt, dif_neg hA, dif_neg hB]

/-- Guard-A transfer: when a feasible pivot `(p, q)` of the rectangle is known, the
characterization of the sub-rectangle above-right of the pivot transfers to the full
rectangle with the same result. -/
theorem char_transfer_pivot (c : Int → Int) (inv1 inv2 lb ub G1 G2 : Int)
    (hm1 : cnwMonoOn c inv1 G1) (hm2 : cnwMonoOn c inv2 G2)
    (b1 e1 b2 e2 p q : Int)
    (hb1 : inv1 < b1) (he1 : e1 ≤ G1) (hb2 : inv2 < b2) (he2 : e2 ≤ G2)
    (hp1 : b1 - 1 ≤ p) (hp2 : p ≤ e1 - 1) (hq1 : b2 - 1 ≤ q) (hq2 : q ≤ e2 - 1)
    (hfeas : feasibleAt c inv1 inv2 lb ub p q) (r : Int × Int)
    (h : prefixCharOf c inv1 inv2 lb ub (p + 1) e1 (q + 1) e2 r) :
    prefixCharOf c inv1 inv2 lb ub b1 e1 b2 e2 r := by
  unfold prefixCharOf at h ⊢
  rcases h with ⟨i, j, ⟨hr, hf, hd⟩, heq⟩ | ⟨hnone, heq⟩
  · obtain ⟨hi1, hi2, hj1, hj2⟩ := hr
    left
    refine ⟨i, j, ⟨⟨by omega, hi2, by omega, hj2⟩, hf, ?_⟩, heq⟩
    intro x y hxy hfxy
    obtain ⟨hx1, hx2, hy1, hy2⟩ := hxy
    have hQ : feasibleAt c inv1 inv2 lb ub (max x p) (max y q) := by
      rcases le_total x p with hxp | hpx
      · rcases le_total y q with hyq | hqy
        · rw [max_eq_right hxp, max_eq_right hyq]
          exact hfeas
        · rw [max_eq_right hxp, max_eq_left hqy]
          have h1 : cnwAt c inv1 x ≤ cnwAt c inv1 p := hm1 x p (by omega) hxp (by omega)
          have h2 : cnwAt c inv2 q ≤ cnwAt c inv2 y := hm2 q y (by omega) hqy (by omega)
          unfold feasibleAt balanceAt at hfeas hfxy ⊢
          omega
      · rcases le_total y q with hyq | hqy
        · rw [max_eq_left hpx, max_eq_right hyq]
          have h1 : cnwAt c inv1 p ≤ cnwAt c inv1 x := hm1 p x (by omega) hpx (by omega)
          have h2 : cnwAt c inv2 y ≤ cnwAt c inv2 q := hm2 y q (by omega) hyq (by omega)
          unfold feasibleAt balanceAt at hfeas hfxy ⊢
          omega
        · rw [max_eq_left hpx, max_eq_left hqy]
          exact hfxy
    have := hd (max x p) (max y q) ⟨by omega, by omega, by omega, by omega⟩ hQ
    omega
  · exact absurd hfeas (hnone p q ⟨by omega, hp2, by omega, hq2⟩)

/-- Guard-B transfer (long first range): when every pair at or right of column `m` is
infeasible, the characterization of the left part transfers to the full rectangle. -/
theorem char_transfer_cutColumn (c : Int → Int) (inv1 inv2 lb ub b1 e1 b2 e2 m : Int)
    (hme : m ≤ e1)
    (hcut : ∀ x y, inRect b1 e1 b2 e2 x y → m ≤ x →
        ¬feasibleAt c inv1 inv2 lb ub x y)
    (r : Int × Int)
    (h : prefixCharOf c inv1 inv2 lb ub b1 m b2 e2 r) :
    prefixCharOf c inv1 inv2 lb ub b1 e1 b2 e2 r := by
  unfold prefixCharOf at h ⊢
  rcases h with ⟨i, j, ⟨hr, hf, hd⟩, heq⟩ | ⟨hnone, heq⟩
  · obtain ⟨hi1, hi2, hj1, hj2⟩ := hr
    left
    refine ⟨i, j, ⟨⟨hi1, by omega, hj1, hj2⟩, hf, ?_⟩, heq⟩
    intro x y hxy hfxy
    obtain ⟨hx1, hx2, hy1, hy2⟩ := hxy
    by_cases hx : m ≤ x
    · exact absurd hfxy (hcut x y ⟨hx1, hx2, hy1, hy2⟩ hx)
    · exact hd x y ⟨hx1, by omega, hy1, hy2⟩ hfxy
  · right
    refine ⟨?_, heq⟩
    intro x y hxy hfxy
    obtain ⟨hx1, hx2, hy1, hy2⟩ := hxy
    by_cases hx : m ≤ x
    · exact hcut x y ⟨hx1, hx2, hy1, hy2⟩ hx hfxy
    · exact hnone x y ⟨hx1, by omega, hy1, hy2⟩ hfxy

/-- Guard-B transfer (long second range): when every pair at or above row `m` is
infeasible, the characterization of the lower part transfers to the full rectangle. -/
theorem char_transfer_cutRow (c : Int → Int) (inv1 inv2 lb ub b1 e1 b2 e2 m : Int)
    (hme : m ≤ e2)
    (hcut : ∀ x y, inRect b1 e1 b2 e2 x y → m ≤ y →
        ¬feasibleAt c inv1 inv2 lb ub x y)
    (r : Int × Int)
    (h : prefixCharOf c inv1 inv2 lb ub b1 e1 b2 m r) :
    prefixCharOf c inv1 inv2 lb ub b1 e1 b2 e2 r := by
  unfold prefixCharOf at h ⊢
  rcases h with ⟨i, j, ⟨hr, hf, hd⟩, heq⟩ | ⟨hnone, heq⟩
  · obtain ⟨hi1, hi2, hj1, hj2⟩ := hr
    left
    refine ⟨i, j, ⟨⟨hi1, hi2, hj1, by omega⟩, hf, ?_⟩, heq⟩
    intro x y hxy hfxy
    obtain ⟨hx1, hx2, hy1, hy2⟩ := hxy
    by_cases hy : m ≤ y
    · exact absurd hfxy (hcut x y ⟨hx1, hx2, hy1, hy2⟩ hy)
    · exact hd x y ⟨hx1, hx2, hy1, by omega⟩ hfxy
  · right
    refine ⟨?_, heq⟩
    intro x y hxy hfxy
    obtain ⟨hx1, hx2, hy1, hy2⟩ := hxy
    by_cases hy : m ≤ y
    · exact hcut x y ⟨hx1, hx2, hy1, hy2⟩ hy hfxy
    · exact hnone x y ⟨hx1, hx2, hy1, by omega⟩ hfxy

/-- Split transfer (long first range): the rectangle splits at `(m1, m2)` into the
left part `[b1, m1) × [b2, m2)` and the right part `[m1, e1) × [m2, e2)`; the pairs
dropped below-right are dominated by a feasible pair on row `m2 - 1` of the right
part (`hD1`), the pairs dropped above-left are infeasible (`hD2`).  The
characterizations of the parts combine to the right-preferring combination rule. -/
theorem char_transfer_split (c : Int → Int) (inv1 inv2 lb ub b1 e1 b2 e2 m1 m2 : Int)
    (hm1b : b1 ≤ m1) (hm1e : m1 ≤ e1) (hm2b : b2 ≤ m2) (hm2e : m2 ≤ e2)
    (he1inv : e1 < invalidPos)
    (hD2 : ∀ x y, inRect b1 e1 b2 e2 x y → feasibleAt c inv1 inv2 lb ub x y →
        x ≤ m1 - 2 → m2 ≤ y → False)
    (hD1 : ∀ x y, inRect b1 e1 b2 e2 x y → feasibleAt c inv1 inv2 lb ub x y →
        m1 ≤ x → y ≤ m2 - 2 → feasibleAt c inv1 inv2 lb ub x (m2 - 1))
    (rl rr : Int × Int)
    (hcl : prefixCharOf c inv1 inv2 lb ub b1 m1 b2 m2 rl)
    (hcr : prefixCharOf c inv1 inv2 lb ub m1 e1 m2 e2 rr) :
    prefixCharOf c inv1 inv2 lb ub b1 e1 b2 e2
      (if rr.1 ≠ invalidPos then rr else rl) := by
  unfold prefixCharOf at hcl hcr ⊢
  rcases hcr with ⟨i, j, ⟨hrr, hrf, hrd⟩, hre⟩ | ⟨hrnone, hre⟩
  · obtain ⟨hi1, hi2, hj1, hj2⟩ := hrr
    have hcond : rr.1 ≠ invalidPos := by
      rw [hre]
      have : ((i + 1, j + 1) : Int × Int).1 = i + 1 := rfl
      rw [this]
      omega
    rw [if_pos hcond]
    left
    refine ⟨i, j, ⟨⟨by omega, hi2, by omega, hj2⟩, hrf, ?_⟩, hre⟩
    intro x y hxy hf
    obtain ⟨hx1, hx2, hy1, hy2⟩ := hxy
    by_cases hxr : m1 - 1 ≤ x ∧ m2 - 1 ≤ y
    · exact hrd x y ⟨hxr.1, hx2, hxr.2, hy2⟩ hf
    · rw [not_and_or] at hxr
      rcases hxr with hx | hy
      · by_cases hy' : m2 ≤ y
        · exact absurd (hD2 x y ⟨hx1, hx2, hy1, hy2⟩ hf (by omega) hy') (by simp)
        · exact ⟨by omega, by omega⟩
      · by_cases hx' : m1 ≤ x
        · have hf' := hD1 x y ⟨hx1, hx2, hy1, hy2⟩ hf hx' (by omega)
          have := hrd x (m2 - 1) ⟨by omega, hx2, by omega, by omega⟩ hf'
          exact ⟨this.1, by omega⟩
        · exact ⟨by omega, by omega⟩
  · have hcond : ¬ rr.1 ≠ invalidPos := by
      rw [hre]
      have : ((invalidPos, invalidPos) : Int × Int).1 = invalidPos := rfl
      rw [this]
      simp
    rw [if_neg hcond]
    rcases hcl with ⟨i, j, ⟨hlr, hlf, hld⟩, hle⟩ | ⟨hlnone, hle⟩
    · obtain ⟨hi1, hi2, hj1, hj2⟩ := hlr
      left
      refine ⟨i, j, ⟨⟨hi1, by omega, hj1, by omega⟩, hlf, ?_⟩, hle⟩
      intro x y hxy hf
      obtain ⟨hx1, hx2, hy1, hy2⟩ := hxy
      by_cases hxr : m1 - 1 ≤ x ∧ m2 - 1 ≤ y
      · exact absurd hf (hrnone x y ⟨hxr.1, hx2, hxr.2, hy2⟩)
      · rw [not_and_or] at hxr
        rcases hxr with hx | hy
        · by_cases hy' : m2 ≤ y
          · exact absurd (hD2 x y ⟨hx1, hx2, hy1, hy2⟩ hf (by omega) hy') (by simp)
          · exact hld x y ⟨hx1, by omega, hy1, by omega⟩ hf
        · by_cases hx' : m1 ≤ x
          · have hf' := hD1 x y ⟨hx1, hx2, hy1, hy2⟩ hf hx' (by omega)
            exact absurd hf' (hrnone x (m2 - 1) ⟨by omega, hx2, by omega, by omega⟩)
          · exact hld x y ⟨hx1, by omega, hy1, by omega⟩ hf
    · right
      refine ⟨?_, hle⟩
      intro x y hxy hf
      obtain ⟨hx1, hx2, hy1, hy2⟩ := hxy
      by_cases hxr : m1 - 1 ≤ x ∧ m2 - 1 ≤ y
      · exact hrnone x y ⟨hxr.1, hx2, hxr.2, hy2⟩ hf
      · rw [not_and_or] at hxr
        rcases hxr with hx | hy
        · by_cases hy' : m2 ≤ y
          · exact hD2 x y ⟨hx1, hx2, hy1, hy2⟩ hf (by omega) hy'
          · exact hlnone x y ⟨hx1, by omega, hy1, by omega⟩ hf
        · by_cases hx' : m1 ≤ x
          · have hf' := hD1 x y ⟨hx1, hx2, hy1, hy2⟩ hf hx' (by omega)
            exact hrnone x (m2 - 1) ⟨by omega, hx2, by omega, by omega⟩ hf'
          · exact hlnone x y ⟨hx1, by omega, hy1, by omega⟩ hf

/-- Split transfer (long second range): mirror of `char_transfer_split` — here the
pairs dropped above-left are dominated by a feasible pair on column `m1 - 1` of the
right part (`hD1`), the pairs dropped below-right are infeasible (`hD2`). -/
theorem char_transfer_split2 (c : Int → Int) (inv1 inv2 lb ub b1 e1 b2 e2 m1 m2 : Int)
    (hm1b : b1 ≤ m1) (hm1e : m1 ≤ e1) (hm2b : b2 ≤ m2) (hm2e : m2 ≤ e2)
    (he1inv : e1 < invalidPos)
    (hD2 : ∀ x y, inRect b1 e1 b2 e2 x y → feasibleAt c inv1 inv2 lb ub x y →
        m1 ≤ x → y ≤ m2 - 2 → False)
    (hD1 : ∀ x y, inRect b1 e1 b2 e2 x y → feasibleAt c inv1 inv2 lb ub x y →
        x ≤ m1 - 2 → m2 ≤ y → feasibleAt c inv1 inv2 lb ub (m1 - 1) y)
    (rl rr : Int × Int)
    (hcl : prefixCharOf c inv1 inv2 lb ub b1 m1 b2 m2 rl)
    (hcr : prefixCharOf c inv1 inv2 lb ub m1 e1 m2 e2 rr) :
    prefixCharOf c inv1 inv2 lb ub b1 e1 b2 e2
      (if rr.1 ≠ invalidPos then rr else rl) := by
  unfold prefixCharOf at hcl hcr ⊢
  rcases hcr with ⟨i, j, ⟨hrr, hrf, hrd⟩, hre⟩ | ⟨hrnone, hre⟩
  · obtain ⟨hi1, hi2, hj1, hj2⟩ := hrr
    have hcond : rr.1 ≠ invalidPos := by
      rw [hre]
      have : ((i + 1, j + 1) : Int × Int).1 = i + 1 := rfl
      rw [this]
      omega
    rw [if_pos hcond]
    left
    refine ⟨i, j, ⟨⟨by omega, hi2, by omega, hj2⟩, hrf, ?_⟩, hre⟩
    intro x y hxy hf
    obtain ⟨hx1, hx2, hy1, hy2⟩ := hxy
    by_cases hxr : m1 - 1 ≤ x ∧ m2 - 1 ≤ y
    · exact hrd x y ⟨hxr.1, hx2, hxr.2, hy2⟩ hf
    · rw [not_and_or] at hxr
      rcases hxr with hx | hy
      · by_cases hy' : m2 ≤ y
        · have hf' := hD1 x y ⟨hx1, hx2, hy1, hy2⟩ hf (by omega) hy'
          have := hrd (m1 - 1) y ⟨by omega, by omega, by omega, hy2⟩ hf'
          exact ⟨by omega, this.2⟩
        · exact ⟨by omega, by omega⟩
      · by_cases hx' : m1 ≤ x
        · exact absurd (hD2 x y ⟨hx1, hx2, hy1, hy2⟩ hf hx' (by omega)) (by simp)
        · exact ⟨by omega, by omega⟩
  · have hcond : ¬ rr.1 ≠ invalidPos := by
      rw [hre]
      have : ((invalidPos, invalidPos) : Int × Int).1 = invalidPos := rfl
      rw [this]
      simp
    rw [if_neg hcond]
    rcases hcl with ⟨i, j, ⟨hlr, hlf, hld⟩, hle⟩ | ⟨hlnone, hle⟩
    · obtain ⟨hi1, hi2, hj1, hj2⟩ := hlr
      left
      refine ⟨i, j, ⟨⟨hi1, by omega, hj1, by omega⟩, hlf, ?_⟩, hle⟩
      intro x y hxy hf
      obtain ⟨hx1, hx2, hy1, hy2⟩ := hxy
      by_cases hxr : m1 - 1 ≤ x ∧ m2 - 1 ≤ y
      · exact absurd hf (hrnone x y ⟨hxr.1, hx2, hxr.2, hy2⟩)
      · rw [not_and_or] at hxr
        rcases hxr with hx | hy
        · by_cases hy' : m2 ≤ y
          · have hf' := hD1 x y ⟨hx1, hx2, hy1, hy2⟩ hf (by omega) hy'
            exact absurd hf' (hrnone (m1 - 1) y ⟨by omega, by omega, by omega, hy2⟩)
          · exact hld x y ⟨hx1, by omega, hy1, by omega⟩ hf
        · by_cases hx' : m1 ≤ x
          · exact absurd (hD2 x y ⟨hx1, hx2, hy1, hy2⟩ hf hx' (by omega)) (by simp)
          · exact hld x y ⟨hx1, by omega, hy1, by omega⟩ hf
    · right
      refine ⟨?_, hle⟩
      intro x y hxy hf
      obtain ⟨hx1, hx2, hy1, hy2⟩ := hxy
      by_cases hxr : m1 - 1 ≤ x ∧ m2 - 1 ≤ y
      · exact hrnone x y ⟨hxr.1, hx2, hxr.2, hy2⟩ hf
      · rw [not_and_or] at hxr
        rcases hxr with hx | hy
        · by_cases hy' : m2 ≤ y
          · have hf' := hD1 x y ⟨hx1, hx2, hy1, hy2⟩ hf (by omega) hy'
            exact hrnone (m1 - 1) y ⟨by omega, by omega, by omega, hy2⟩ hf'
          · exact hlnone x y ⟨hx1, by omega, hy1, by omega⟩ hf
        · by_cases hx' : m1 ≤ x
          · exact hD2 x y ⟨hx1, hx2, hy1, hy2⟩ hf hx' (by omega)
          · exact hlnone x y ⟨hx1, by omega, hy1, by omega⟩ hf

/-- Characterization of `findBestPrefixesRecursive` on sorted data with
`lb ≤ 0 ≤ ub`, by strong induction on the size of the rectangle: like the sequential
search, it returns the successor pair of the componentwise-greatest feasible pair,
or `(invalid, invalid)` exactly when the rectangle has no feasible pair. -/
theorem findBestPrefixesRecursive_char (c : Int → Int) (inv1 inv2 lb ub G1 G2 : Int)
    (hm1 : cnwMonoOn c inv1 G1) (hm2 : cnwMonoOn c inv2 G2)
    (hlb : lb ≤ 0) (hub : 0 ≤ ub) (hG1 : G1 < invalidPos) :
    ∀ (N : Nat) (b1 e1 b2 e2 : Int),
      (e1 - b1).toNat + (e2 - b2).toNat ≤ N →
      inv1 < b1 → b1 ≤ e1 → e1 ≤ G1 → inv2 < b2 → b2 ≤ e2 → e2 ≤ G2 →
      prefixCharOf c inv1 inv2 lb ub b1 e1 b2 e2
        (findBestPrefixesRecursive c inv1 inv2 lb ub b1 e1 b2 e2) := by
  intro N
  induction N with
  | zero =>
    intro b1 e1 b2 e2 hμ hb1 hbe1 he1 hb2 hbe2 he2
    rw [findBestPrefixesRecursive_eq_seq c inv1 inv2 lb ub b1 e1 b2 e2 (by omega)]
    exact findBestPrefixesSequentially_charOf c inv1 inv2 lb ub G1 G2 hm1 hm2
      hlb hub b1 e1 b2 e2 hb1 hbe1 he1 hb2 hbe2 he2
  | succ N ih =>
    intro b1 e1 b2 e2 hμ hb1 hbe1 he1 hb2 hbe2 he2
    by_cases hseq : e1 - b1 < 2000 ∧ e2 - b2 < 2000
    · rw [findBestPrefixesRecursive_eq_seq c inv1 inv2 lb ub b1 e1 b2 e2 hseq]
      exact findBestPrefixesSequentially_charOf c inv1 inv2 lb ub G1 G2 hm1 hm2
        hlb hub b1 e1 b2 e2 hb1 hbe1 he1 hb2 hbe2 he2
    · by_cases hgt : e2 - b2 < e1 - b1
      · have hmidlo : b1 ≤ b1 + (e1 - b1) / 2 := by omega
        have hmidhi : b1 + (e1 - b1) / 2 ≤ e1 - 1 := by omega
        have hmtlo : b2 ≤ lowBound c b2 e2 (c (b1 + (e1 - b1) / 2)) := by
          have h := min_le_lowBound c b2 e2 (c (b1 + (e1 - b1) / 2))
          omega
        have hmthi : lowBound c b2 e2 (c (b1 + (e1 - b1) / 2)) ≤ e2 :=
          lowBound_le_hi c b2 e2 (c (b1 + (e1 - b1) / 2))
        by_cases hA : lowBound c b2 e2 (c (b1 + (e1 - b1) / 2)) ≠ e2 ∧
            b1 + (e1 - b1) / 2 ≠ e1 ∧
            feasibleAt c inv1 inv2 lb ub (b1 + (e1 - b1) / 2)
              (lowBound c b2 e2 (c (b1 + (e1 - b1) / 2)))
        · rw [findBestPrefixesRecursive_eq_A1 c inv1 inv2 lb ub b1 e1 b2 e2 hseq hgt hA]
          have hne := hA.1
          refine char_transfer_pivot c inv1 inv2 lb ub G1 G2 hm1 hm2 b1 e1 b2 e2
            (b1 + (e1 - b1) / 2) (lowBound c b2 e2 (c (b1 + (e1 - b1) / 2)))
            hb1 he1 hb2 he2 (by omega) hmidhi (by omega) (by omega) hA.2.2 _ ?_
          exact ih (b1 + (e1 - b1) / 2 + 1) e1
            (lowBound c b2 e2 (c (b1 + (e1 - b1) / 2)) + 1) e2
            (by omega) (by omega) (by omega) he1 (by omega) (by omega) he2
        · by_cases hB : lowBound c b2 e2 (c (b1 + (e1 - b1) / 2)) = e2 ∧
              ub < balanceAt c inv1 inv2 (b1 + (e1 - b1) / 2) (e2 - 1)
          · rw [findBestPrefixesRecursive_eq_B1 c inv1 inv2 lb ub b1 e1 b2 e2
              hseq hgt hA hB]
            rw [hB.1]
            have hsub := ih b1 (b1 + (e1 - b1) / 2) b2 e2
              (by omega) hb1 (by omega) (by omega) hb2 hbe2 he2
            have hcut : ∀ x y, inRect b1 e1 b2 e2 x y → b1 + (e1 - b1) / 2 ≤ x →
                ¬feasibleAt c inv1 inv2 lb ub x y := by
              intro x y hxy hmx hf
              obtain ⟨hx1, hx2, hy1, hy2⟩ := hxy
              have h1 : cnwAt c inv1 (b1 + (e1 - b1) / 2) ≤ cnwAt c inv1 x :=
                hm1 _ x (by omega) hmx (by omega)
              have h2 : cnwAt c inv2 y ≤ cnwAt c inv2 (e2 - 1) :=
                hm2 y _ (by omega) (by omega) (by omega)
              have hb' := hB.2
              unfold feasibleAt balanceAt at hf hb'
              omega
            exact char_transfer_cutColumn c inv1 inv2 lb ub b1 e1 b2 e2
              (b1 + (e1 - b1) / 2) (by omega) hcut _ hsub
          · rw [findBestPrefixesRecursive_eq_D1 c inv1 inv2 lb ub b1 e1 b2 e2
              hseq hgt hA hB]
            have hleft := ih b1 (b1 + (e1 - b1) / 2) b2
              (lowBound c b2 e2 (c (b1 + (e1 - b1) / 2)))
              (by omega) hb1 (by omega) (by omega) hb2 hmtlo (by omega)
            have hright := ih (b1 + (e1 - b1) / 2) e1
              (lowBound c b2 e2 (c (b1 + (e1 - b1) / 2))) e2
              (by omega) (by omega) (by omega) he1 (by omega) hmthi he2
            have hD2 : ∀ x y, inRect b1 e1 b2 e2 x y →
                feasibleAt c inv1 inv2 lb ub x y →
                x ≤ b1 + (e1 - b1) / 2 - 2 →
                lowBound c b2 e2 (c (b1 + (e1 - b1) / 2)) ≤ y → False := by
              intro x y hxy hf hx hy
              obtain ⟨hx1, hx2, hy1, hy2⟩ := hxy
              have hnf : ¬ feasibleAt c inv1 inv2 lb ub (b1 + (e1 - b1) / 2)
                  (lowBound c b2 e2 (c (b1 + (e1 - b1) / 2))) := by
                intro hcon
                exact hA ⟨by omega, by omega, hcon⟩
              have hget : c (b1 + (e1 - b1) / 2) ≤
                  c (lowBound c b2 e2 (c (b1 + (e1 - b1) / 2))) :=
                le_lowBound_get c b2 e2 (c (b1 + (e1 - b1) / 2)) (by omega)
              have heq1 : cnwAt c inv1 (b1 + (e1 - b1) / 2) = c (b1 + (e1 - b1) / 2) :=
                cnwAt_of_gt c inv1 _ (by omega)
              have heq2 : cnwAt c inv2 (lowBound c b2 e2 (c (b1 + (e1 - b1) / 2))) =
                  c (lowBound c b2 e2 (c (b1 + (e1 - b1) / 2))) :=
                cnwAt_of_gt c inv2 _ (by omega)
              have h1 : cnwAt c inv1 x ≤ cnwAt c inv1 (b1 + (e1 - b1) / 2) :=
                hm1 x _ (by omega) (by omega) (by omega)
              have h2 : cnwAt c inv2 (lowBound c b2 e2 (c (b1 + (e1 - b1) / 2))) ≤
                  cnwAt c inv2 y :=
                hm2 _ y (by omega) hy (by omega)
              unfold feasibleAt balanceAt at hf hnf
              omega
            have hD1 : ∀ x y, inRect b1 e1 b2 e2 x y →
                feasibleAt c inv1 inv2 lb ub x y →
                b1 + (e1 - b1) / 2 ≤ x →
                y ≤ lowBound c b2 e2 (c (b1 + (e1 - b1) / 2)) - 2 →
                feasibleAt c inv1 inv2 lb ub x
                  (lowBound c b2 e2 (c (b1 + (e1 - b1) / 2)) - 1) := by
              intro x y hxy hf hx hy
              obtain ⟨hx1, hx2, hy1, hy2⟩ := hxy
              have hlt : c (lowBound c b2 e2 (c (b1 + (e1 - b1) / 2)) - 1) <
                  c (b1 + (e1 - b1) / 2) :=
                lowBound_lt_of_lt c b2 e2 (c (b1 + (e1 - b1) / 2)) _ (by omega) (by omega)
              have heq0 : cnwAt c inv2 (lowBound c b2 e2 (c (b1 + (e1 - b1) / 2)) - 1) =
                  c (lowBound c b2 e2 (c (b1 + (e1 - b1) / 2)) - 1) :=
                cnwAt_of_gt c inv2 _ (by omega)
              have heq1 : cnwAt c inv1 (b1 + (e1 - b1) / 2) = c (b1 + (e1 - b1) / 2) :=
                cnwAt_of_gt c inv1 _ (by omega)
              have h1 : cnwAt c inv1 (b1 + (e1 - b1) / 2) ≤ cnwAt c inv1 x :=
                hm1 _ x (by omega) hx (by omega)
              have h2 : cnwAt c inv2 y ≤
                  cnwAt c inv2 (lowBound c b2 e2 (c (b1 + (e1 - b1) / 2)) - 1) :=
                hm2 y _ (by omega) (by omega) (by omega)
              unfold feasibleAt balanceAt at hf ⊢
              omega
            exact char_transfer_split c inv1 inv2 lb ub b1 e1 b2 e2
              (b1 + (e1 - b1) / 2) (lowBound c b2 e2 (c (b1 + (e1 - b1) / 2)))
              hmidlo (by omega) hmtlo hmthi (by omega) hD2 hD1 _ _ hleft hright
      · have hmidlo : b2 ≤ b2 + (e2 - b2) / 2 := by omega
        have hmidhi : b2 + (e2 - b2) / 2 ≤ e2 - 1 := by omega
        have hmtlo : b1 ≤ lowBound c b1 e1 (c (b2 + (e2 - b2) / 2)) := by
          have h := min_le_lowBound c b1 e1 (c (b2 + (e2 - b2) / 2))
          omega
        have hmthi : lowBound c b1 e1 (c (b2 + (e2 - b2) / 2)) ≤ e1 :=
          lowBound_le_hi c b1 e1 (c (b2 + (e2 - b2) / 2))
        by_cases hA : lowBound c b1 e1 (c (b2 + (e2 - b2) / 2)) ≠ e1 ∧
            b2 + (e2 - b2) / 2 ≠ e2 ∧
            feasibleAt c inv1 inv2 lb ub (lowBound c b1 e1 (c (b2 + (e2 - b2) / 2)))
              (b2 + (e2 - b2) / 2)
        · rw [findBestPrefixesRecursive_eq_A2 c inv1 inv2 lb ub b1 e1 b2 e2 hseq hgt hA]
          have hne := hA.1
          refine char_transfer_pivot c inv1 inv2 lb ub G1 G2 hm1 hm2 b1 e1 b2 e2
            (lowBound c b1 e1 (c (b2 + (e2 - b2) / 2))) (b2 + (e2 - b2) / 2)
            hb1 he1 hb2 he2 (by omega) (by omega) (by omega) hmidhi hA.2.2 _ ?_
          exact ih (lowBound c b1 e1 (c (b2 + (e2 - b2) / 2)) + 1) e1
            (b2 + (e2 - b2) / 2 + 1) e2
            (by omega) (by omega) (by omega) he1 (by omega) (by omega) he2
        · by_cases hB : lowBound c b1 e1 (c (b2 + (e2 - b2) / 2)) = e1 ∧
              balanceAt c inv1 inv2 (e1 - 1) (b2 + (e2 - b2) / 2) < lb
          · rw [findBestPrefixesRecursive_eq_B2 c inv1 inv2 lb ub b1 e1 b2 e2
              hseq hgt hA hB]
            rw [hB.1]
            have hsub := ih b1 e1 b2 (b2 + (e2 - b2) / 2)
              (by omega) hb1 hbe1 he1 hb2 (by omega) (by omega)
            have hcut : ∀ x y, inRect b1 e1 b2 e2 x y → b2 + (e2 - b2) / 2 ≤ y →
                ¬feasibleAt c inv1 inv2 lb ub x y := by
              intro x y hxy hmy hf
              obtain ⟨hx1, hx2, hy1, hy2⟩ := hxy
              have h1 : cnwAt c inv1 x ≤ cnwAt c inv1 (e1 - 1) :=
                hm1 x _ (by omega) (by omega) (by omega)
              have h2 : cnwAt c inv2 (b2 + (e2 - b2) / 2) ≤ cnwAt c inv2 y :=
                hm2 _ y (by omega) hmy (by omega)
              have hb' := hB.2
              unfold feasibleAt balanceAt at hf hb'
              omega
            exact char_transfer_cutRow c inv1 inv2 lb ub b1 e1 b2 e2
              (b2 + (e2 - b2) / 2) (by omega) hcut _ hsub
          · rw [findBestPrefixesRecursive_eq_D2 c inv1 inv2 lb ub b1 e1 b2 e2
              hseq hgt hA hB]
            have hleft := ih b1 (lowBound c b1 e1 (c (b2 + (e2 - b2) / 2))) b2
              (b2 + (e2 - b2) / 2)
              (by omega) hb1 hmtlo (by omega) hb2 hmidlo (by omega)
            have hright := ih (lowBound c b1 e1 (c (b2 + (e2 - b2) / 2))) e1
              (b2 + (e2 - b2) / 2) e2
              (by omega) (by omega) hmthi he1 (by omega) (by omega) he2
            have hD2 : ∀ x y, inRect b1 e1 b2 e2 x y →
                feasibleAt c inv1 inv2 lb ub x y →
                lowBound c b1 e1 (c (b2 + (e2 - b2) / 2)) ≤ x →
                y ≤ b2 + (e2 - b2) / 2 - 2 → False := by
              intro x y hxy hf hx hy
              obtain ⟨hx1, hx2, hy1, hy2⟩ := hxy
              have hnf : ¬ feasibleAt c inv1 inv2 lb ub
                  (lowBound c b1 e1 (c (b2 + (e2 - b2) / 2))) (b2 + (e2 - b2) / 2) := by
                intro hcon
                exact hA ⟨by omega, by omega, hcon⟩
              have hget : c (b2 + (e2 - b2) / 2) ≤
                  c (lowBound c b1 e1 (c (b2 + (e2 - b2) / 2))) :=
                le_lowBound_get c b1 e1 (c (b2 + (e2 - b2) / 2)) (by omega)
              have heq1 : cnwAt c inv1 (lowBound c b1 e1 (c (b2 + (e2 - b2) / 2))) =
                  c (lowBound c b1 e1 (c (b2 + (e2 - b2) / 2))) :=
                cnwAt_of_gt c inv1 _ (by omega)
              have heq2 : cnwAt c inv2 (b2 + (e2 - b2) / 2) = c (b2 + (e2 - b2) / 2) :=
                cnwAt_of_gt c inv2 _ (by omega)
              have h1 : cnwAt c inv1 (lowBound c b1 e1 (c (b2 + (e2 - b2) / 2))) ≤
                  cnwAt c inv1 x :=
                hm1 _ x (by omega) hx (by omega)
              have h2 : cnwAt c inv2 y ≤ cnwAt c inv2 (b2 + (e2 - b2) / 2) :=
                hm2 y _ (by omega) (by omega) (by omega)
              unfold feasibleAt balanceAt at hf hnf
              omega
            have hD1 : ∀ x y, inRect b1 e1 b2 e2 x y →
                feasibleAt c inv1 inv2 lb ub x y →
                x ≤ lowBound c b1 e1 (c (b2 + (e2 - b2) / 2)) - 2 →
                b2 + (e2 - b2) / 2 ≤ y →
                feasibleAt c inv1 inv2 lb ub
                  (lowBound c b1 e1 (c (b2 + (e2 - b2) / 2)) - 1) y := by
              intro x y hxy hf hx hy
              obtain ⟨hx1, hx2, hy1, hy2⟩ := hxy
              have hlt : c (lowBound c b1 e1 (c (b2 + (e2 - b2) / 2)) - 1) <
                  c (b2 + (e2 - b2) / 2) :=
                lowBound_lt_of_lt c b1 e1 (c (b2 + (e2 - b2) / 2)) _ (by omega) (by omega)
              have heq0 : cnwAt c inv1 (lowBound c b1 e1 (c (b2 + (e2 - b2) / 2)) - 1) =
                  c (lowBound c b1 e1 (c (b2 + (e2 - b2) / 2)) - 1) :=
                cnwAt_of_gt c inv1 _ (by omega)
              have heq2 : cnwAt c inv2 (b2 + (e2 - b2) / 2) = c (b2 + (e2 - b2) / 2) :=
                cnwAt_of_gt c inv2 _ (by omega)
              have h1 : cnwAt c inv1 x ≤
                  cnwAt c inv1 (lowBound c b1 e1 (c (b2 + (e2 - b2) / 2)) - 1) :=
                hm1 x _ (by omega) (by omega) (by omega)
              have h2 : cnwAt c inv2 (b2 + (e2 - b2) / 2) ≤ cnwAt c inv2 y :=
                hm2 _ y (by omega) hy (by omega)
              unfold feasibleAt balanceAt at hf ⊢
              omega
            exact char_transfer_split2 c inv1 inv2 lb ub b1 e1 b2 e2
              (lowBound c b1 e1 (c (b2 + (e2 - b2) / 2))) (b2 + (e2 - b2) / 2)
              hmtlo hmthi hmidlo (by omega) (by omega) hD2 hD1 _ _ hleft hright

/-- The two prefix searches agree on sorted data with `lb ≤ 0 ≤ ub`. -/
theorem findBestPrefixesRecursive_eq_sequentially (c : Int → Int)
    (inv1 inv2 lb ub G1 G2 : Int)
    (hm1 : cnwMonoOn c inv1 G1) (hm2 : cnwMonoOn c inv2 G2)
    (hlb : lb ≤ 0) (hub : 0 ≤ ub) (hG1 : G1 < invalidPos) (b1 e1 b2 e2 : Int)
    (hb1 : inv1 < b1) (hbe1 : b1 ≤ e1) (he1 : e1 ≤ G1)
    (hb2 : inv2 < b2) (hbe2 : b2 ≤ e2) (he2 : e2 ≤ G2) :
    findBestPrefixesRecursive c inv1 inv2 lb ub b1 e1 b2 e2 =
      findBestPrefixesSequentially c inv1 inv2 lb ub b1 e1 b2 e2 := by
  have hr := findBestPrefixesRecursive_char c inv1 inv2 lb ub G1 G2 hm1 hm2 hlb hub hG1
    ((e1 - b1).toNat + (e2 - b2).toNat) b1 e1 b2 e2 le_rfl hb1 hbe1 he1 hb2 hbe2 he2
  have hs := findBestPrefixesSequentially_charOf c inv1 inv2 lb ub G1 G2 hm1 hm2
    hlb hub b1 e1 b2 e2 hb1 hbe1 he1 hb2 hbe2 he2
  unfold prefixCharOf at hr hs
  rcases hr with ⟨i, j, hg, he⟩ | ⟨hn, he⟩
  · rcases hs with ⟨i', j', hg', he'⟩ | ⟨hn', he'⟩
    · obtain ⟨h1, h2⟩ :=
        greatestFeasPair_unique c inv1 inv2 lb ub b1 e1 b2 e2 i j i' j' hg hg'
      rw [he, he', h1, h2]
    · exact absurd hg.2.1 (hn' i j hg.1)
  · rcases hs with ⟨i', j', hg', he'⟩ | ⟨hn', he'⟩
    · exact absurd hg'.2.1 (hn i' j' hg'.1)
    · rw [he, he']

/-- **C3** (amended).  On sorted move ranges — cumulative node weights nondecreasing
on each range, the empty prefix reading 0 — with bounds satisfying
`lb_p1 ≤ 0 ≤ ub_p2` and ranges below the invalid marker,
`findBestPrefixesRecursive` returns exactly the same prefix pair as
`findBestPrefixesSequentially`, and that common result is the successor pair of the
componentwise-greatest (hence lexicographically-rightmost) feasible pair of the
search rectangle, or the invalid pair exactly when no feasible pair exists.  The
original claim asserts this for every bound pair; the sign condition `lb ≤ 0 ≤ ub`
cannot be dropped (`C3_claim_counterexample`). -/
theorem C3_prefix_search_equivalence (c : Int → Int) (inv1 inv2 lb ub G1 G2 : Int)
    (hm1 : cnwMonoOn c inv1 G1) (hm2 : cnwMonoOn c inv2 G2)
    (hlb : lb ≤ 0) (hub : 0 ≤ ub) (hG1 : G1 < invalidPos) (b1 e1 b2 e2 : Int)
    (hb1 : inv1 < b1) (hbe1 : b1 ≤ e1) (he1 : e1 ≤ G1)
    (hb2 : inv2 < b2) (hbe2 : b2 ≤ e2) (he2 : e2 ≤ G2) :
    findBestPrefixesRecursive c inv1 inv2 lb ub b1 e1 b2 e2 =
      findBestPrefixesSequentially c inv1 inv2 lb ub b1 e1 b2 e2
    ∧ prefixCharOf c inv1 inv2 lb ub b1 e1 b2 e2
        (findBestPrefixesSequentially c inv1 inv2 lb ub b1 e1 b2 e2) :=
  ⟨findBestPrefixesRecursive_eq_sequentially c inv1 inv2 lb ub G1 G2 hm1 hm2
      hlb hub hG1 b1 e1 b2 e2 hb1 hbe1 he1 hb2 hbe2 he2,
    findBestPrefixesSequentially_charOf c inv1 inv2 lb ub G1 G2 hm1 hm2
      hlb hub b1 e1 b2 e2 hb1 hbe1 he1 hb2 hbe2 he2⟩

/-- Witness for `C3_prefix_search_equivalence` at a concrete instance. -/
theorem C3_prefix_search_witness :
    cnwMonoOn (fun _ => (0 : Int)) (-1) 1 ∧ cnwMonoOn (fun _ => (0 : Int)) 0 2 ∧
    (findBestPrefixesRecursive (fun _ => (0 : Int)) (-1) 0 0 0 0 1 1 2 =
        findBestPrefixesSequentially (fun _ => (0 : Int)) (-1) 0 0 0 0 1 1 2
      ∧ prefixCharOf (fun _ => (0 : Int)) (-1) 0 0 0 0 1 1 2
          (findBestPrefixesSequentially (fun _ => (0 : Int)) (-1) 0 0 0 0 1 1 2)) := by
  have hm1pf : cnwMonoOn (fun _ => (0 : Int)) (-1) 1 := by
    intro i j h1 h2 h3
    simp [cnwAt]
  have hm2pf : cnwMonoOn (fun _ => (0 : Int)) 0 2 := by
    intro i j h1 h2 h3
    simp [cnwAt]
  exact ⟨hm1pf, hm2pf,
    C3_prefix_search_equivalence (fun _ => (0 : Int)) (-1) 0 0 0 1 2 hm1pf hm2pf
      (by decide) (by decide) (by decide) 0 1 1 2
      (by decide) (by decide) (by decide) (by decide) (by decide) (by decide)⟩

/-- **C3**, the claim as stated is false: with an upper bound `ub_p2 < 0` both
searches return the invalid pair although the rectangle contains a feasible pair
(the staircase walk only visits pairs along the balance sign change and never looks
below it when `0 < lb` or above it when `ub < 0`).  Instance: cumulative weights
`[1, 2]` for the first range and `[3]` for the second, `[lb, ub] = [-5, -2]`:
the pair `(first two moves of range 1, one move of range 2)` has balance
`2 - 3 = -1 > ub`, walking back reaches balance `2, 1, 0 > ub`, so the walk reports
invalid — yet `(first move of range 1, one move of range 2)` has feasible balance
`1 - 3 = -2`. -/
theorem C3_claim_counterexample :
    ∃ (c : Int → Int) (inv1 inv2 lb ub b1 e1 b2 e2 i j : Int),
      cnwMonoOn c inv1 e1 ∧ cnwMonoOn c inv2 e2 ∧
      inv1 = b1 - 1 ∧ inv2 = b2 - 1 ∧ b1 ≤ e1 ∧ b2 ≤ e2 ∧
      inRect b1 e1 b2 e2 i j ∧ feasibleAt c inv1 inv2 lb ub i j ∧
      findBestPrefixesSequentially c inv1 inv2 lb ub b1 e1 b2 e2 =
        (invalidPos, invalidPos) ∧
      findBestPrefixesRecursive c inv1 inv2 lb ub b1 e1 b2 e2 =
        (invalidPos, invalidPos) := by
  refine ⟨fun x => if x = 0 then 1 else if x = 1 then 2 else 3,
    -1, 1, -5, -2, 0, 2, 2, 3, 0, 2, ?_, ?_, by decide, by decide, by decide,
    by decide, by decide, by decide, ?_, ?_⟩
  · intro i j h1 h2 h3
    have hi : i = -1 ∨ i = 0 ∨ i = 1 := by omega
    have hj : j = -1 ∨ j = 0 ∨ j = 1 := by omega
    rcases hi with hi | hi | hi <;> rcases hj with hj | hj | hj <;>
      subst hi <;> subst hj <;> first | decide | omega
  · intro i j h1 h2 h3
    have hi : i = 1 ∨ i = 2 := by omega
    have hj : j = 1 ∨ j = 2 := by omega
    rcases hi with hi | hi <;> rcases hj with hj | hj <;>
      subst hi <;> subst hj <;> first | decide | omega
  · rw [findBestPrefixesSequentially]
    rw [if_neg (by decide), if_pos (by decide), dif_neg (by decide)]
    rw [findBestPrefixesSequentially]
    rw [if_neg (by decide), if_neg (by decide), dif_neg (by decide)]
    rw [findBestPrefixesSequentially]
    rw [if_neg (by decide), if_neg (by decide), dif_neg (by decide)]
    rw [findBestPrefixesSequentially]
    rw [if_neg (by decide), if_neg (by decide), dif_pos (by decide)]
  · rw [findBestPrefixesRecursive_eq_seq _ _ _ _ _ _ _ _ _ (by decide)]
    rw [findBestPrefixesSequentially]
    rw [if_neg (by decide), if_pos (by decide), dif_neg (by decide)]
    rw [findBestPrefixesSequentially]
    rw [if_neg (by decide), if_neg (by decide), dif_neg (by decide)]
    rw [findBestPrefixesSequentially]
    rw [if_neg (by decide), if_neg (by decide), dif_neg (by decide)]
    rw [findBestPrefixesSequentially]
    rw [if_neg (by decide), if_neg (by decide), dif_pos (by decide)]

end MtKahypar
